import Mathlib

/-!
# StorageBox-Generator: a verification development of `main.js`

The page script `main.js` is embedded function by function.  JavaScript strings are
modelled as lists of characters (`Text`), module-level variables and the DOM properties
the script writes are fields of explicit state records, and asynchronous code is a step
function over an explicit event (`trigger`, timer firing, completion settling).
-/

namespace StorageBox

/-- JavaScript string values, as the list of their characters. -/
abbrev Text := List Char

/-! ## Platform helpers -/

/-- The decimal digits of a natural number: `Number::toString` on a count. -/
def numberToString (k : Nat) : Text := Nat.toDigits 10 k

/-- `Array.prototype.join(sep)` on an array of strings. -/
def join (sep : Text) (xs : List Text) : Text := List.intercalate sep xs

/-- `String.prototype.startsWith`. -/
def startsWith (s p : Text) : Bool := p.isPrefixOf s

/-- The rest of `s` after the literal `p`, when `s` begins with `p`. -/
def stripPrefix? : Text → Text → Option Text
  | [], s => some s
  | _ :: _, [] => none
  | p :: ps, c :: cs => if p = c then stripPrefix? ps cs else none

/-- Line terminators of ECMAScript: the characters the regular-expression `.` refuses
(no `s` flag) and before which `$` matches under the `m` flag. -/
def isLineTerminator (c : Char) : Bool :=
  c = '\n' || c = '\r' || c = Char.ofNat 0x2028 || c = Char.ofNat 0x2029

/-- The regular-expression class `\d`. -/
def isDigit (c : Char) : Bool := '0' ≤ c && c ≤ '9'

/-- Existence of a match of `.*?` followed by the continuation `k`: `k` is tried after
zero, one, two ... characters, none of which may be a line terminator. -/
def lazyDotThen (k : Text → Bool) : Text → Bool
  | [] => k []
  | c :: cs => k (c :: cs) || (!isLineTerminator c && lazyDotThen k cs)

/-! ## Numbers (IEEE 754 binary64)

The numbers `formatMillis` computes with are non-negative and finite.  Such a number is
carried as a mantissa and a binary exponent: zero is `⟨0, 0⟩`, every other number has its
mantissa in `[2^52, 2^53)`.  An operation computes the exact rational result and rounds it
to the nearest number, ties to the even mantissa; results stay below `2^1024` and above
`2^-1022` here, so there is neither overflow nor a subnormal result. -/

/-- A non-negative finite number: the value `m * 2 ^ e`. -/
structure Double where
  m : Nat
  e : Int
deriving DecidableEq

/-- The position of the leading bit of `n`, by halving. -/
def log2Fuel : Nat → Nat → Nat
  | 0, _ => 0
  | fuel + 1, n => if n < 2 then 0 else log2Fuel fuel (n / 2) + 1

/-- The position of the leading bit of `n`: the largest `l` with `2 ^ l ≤ n`. -/
def log2 (n : Nat) : Nat := log2Fuel n n

/-- The binary exponent of `p / d`: the integer `l` with `2 ^ l ≤ p / d < 2 ^ (l + 1)`. -/
def log2Ratio (p d : Nat) : Int :=
  if log2 d ≤ log2 p then
    (if d * 2 ^ (log2 p - log2 d) ≤ p then ((log2 p - log2 d : Nat) : Int)
      else ((log2 p - log2 d : Nat) : Int) - 1)
  else
    (if d ≤ p * 2 ^ (log2 d - log2 p) then -((log2 d - log2 p : Nat) : Int)
      else -((log2 d - log2 p : Nat) : Int) - 1)

/-- The number nearest to the non-negative rational `q`, ties to even: `q` is scaled to
`x / y` in `[2^52, 2^53)`, the quotient is rounded to an integer mantissa, and a mantissa
that reaches `2^53` moves to the next exponent. -/
def roundNE (q : ℚ) : Double :=
  let p := q.num.toNat
  let d := q.den
  if p = 0 then ⟨0, 0⟩
  else
    let e : Int := log2Ratio p d - 52
    let x := if 0 ≤ e then p else p * 2 ^ (-e).toNat
    let y := if 0 ≤ e then d * 2 ^ e.toNat else d
    let m0 := x / y
    let r := x % y
    let m := if y < 2 * r ∨ (2 * r = y ∧ m0 % 2 = 1) then m0 + 1 else m0
    if m = 2 ^ 53 then ⟨2 ^ 52, e + 1⟩ else ⟨m, e⟩

/-- The numerator of the value of a number, over `Double.den`. -/
def Double.num (x : Double) : Nat := if 0 ≤ x.e then x.m * 2 ^ x.e.toNat else x.m

/-- The denominator of the value of a number, a power of two. -/
def Double.den (x : Double) : Nat := if 0 ≤ x.e then 1 else 2 ^ (-x.e).toNat

/-- The number for an integer literal or integer argument `n`: the number nearest to `n`,
which is `n` itself when `n` is an integer-valued number. -/
def Double.ofNat (n : Nat) : Double := roundNE (mkRat n 1)

/-- The operator `/` with a positive integer divisor `c`. -/
def Double.div (x : Double) (c : Nat) : Double := roundNE (mkRat x.num (x.den * c))

/-- The function `Math.floor`, whose result is an integer-valued number. -/
def Double.floor (x : Double) : Nat := x.num / x.den

/-- The number of decimal places by which `vn / vd < 1` has to be shifted to reach 1. -/
def leadShift : Nat → Nat → Nat → Nat
  | 0, _, _ => 0
  | fuel + 1, vn, vd => if vd ≤ vn then 0 else leadShift fuel (vn * 10) vd + 1

/-- The decimal magnitude of `vn / vd`: the `n` with `10 ^ (n - 1) ≤ vn / vd < 10 ^ n`. -/
def magnitude (vn vd : Nat) : Int :=
  if vd ≤ vn then ((Nat.toDigits 10 (vn / vd)).length : Int)
  else 1 - (leadShift 400 vn vd : Int)

/-- The decimal `s * 10 ^ (-sh)`. -/
def candidate (s : Nat) (sh : Int) : ℚ :=
  if 0 ≤ sh then mkRat s (10 ^ sh.toNat) else mkRat (s * 10 ^ (-sh).toNat) 1

/-- The decimals with `k` digits next to the number `x` of magnitude `n`: `x` is scaled by
`10 ^ sh`, `sh = k - n`, and cut to the integer `lo`.  A candidate `s` is valid when the
number nearest to `s * 10 ^ (-sh)` is `x`; of two valid candidates the one closer to `x`
is taken, the even one when they are equally close. -/
def tryDigits (x : Double) (n : Int) (k : Nat) : Option (Nat × Int) :=
  let sh : Int := (k : Int) - n
  let num := if 0 ≤ sh then x.num * 10 ^ sh.toNat else x.num
  let den := if 0 ≤ sh then x.den else x.den * 10 ^ (-sh).toNat
  let lo := num / den
  let r := num % den
  let loOk : Bool := decide (roundNE (candidate lo sh) = x)
  let hiOk : Bool := decide (roundNE (candidate (lo + 1) sh) = x)
  if loOk && hiOk then
    (if 2 * r < den ∨ (2 * r = den ∧ lo % 2 = 0) then some (lo, sh) else some (lo + 1, sh))
  else if loOk then some (lo, sh)
  else if hiOk then some (lo + 1, sh)
  else none

/-- The shortest decimal that denotes `x`: the first `k`, counting up, with a valid
candidate of `k` digits. -/
def shortest (x : Double) (n : Int) : Nat → Nat → Option (Nat × Int)
  | 0, _ => none
  | fuel + 1, k =>
    match tryDigits x n k with
    | some r => some r
    | none => shortest x n fuel (k + 1)

/-- A run of `n` zeros. -/
def zeros (n : Nat) : Text := List.replicate n '0'

/-- The digits without their trailing zeros. -/
def stripZeros (ds : Text) : Text := (ds.reverse.dropWhile (fun c => c = '0')).reverse

/-- The text of `Number::toString` for the digits `ds`, `k` of them, and the position `n`
of the decimal point behind the first digit: the digits followed by zeros when
`k ≤ n ≤ 21`, a point inside the digits when `0 < n ≤ 21`, `0.` and zeros in front of the
digits when `-6 < n ≤ 0`, and exponent notation otherwise. -/
def formatDecimal (ds : Text) (n : Int) : Text :=
  let k := ds.length
  if (k : Int) ≤ n ∧ n ≤ 21 then ds ++ zeros (n.toNat - k)
  else if 0 < n ∧ n ≤ 21 then ds.take n.toNat ++ '.' :: ds.drop n.toNat
  else if -6 < n ∧ n ≤ 0 then '0' :: '.' :: (zeros (-n).toNat ++ ds)
  else
    let ex := n - 1
    let sign := if 0 ≤ ex then '+' else '-'
    let exd := Nat.toDigits 10 ex.natAbs
    if k = 1 then ds ++ 'e' :: sign :: exd
    else ds.take 1 ++ '.' :: (ds.drop 1 ++ 'e' :: sign :: exd)

/-- The operation `Number::toString` (radix 10), which a template literal applies to a
number: `0` for zero, and otherwise the shortest decimal that denotes the number, at
most 17 digits. -/
def Double.toText (x : Double) : Text :=
  if x.m = 0 then ['0']
  else
    match shortest x (magnitude x.num x.den) 17 1 with
    | some (s, sh) =>
      formatDecimal (stripZeros (Nat.toDigits 10 s))
        (((Nat.toDigits 10 s).length : Int) - sh)
    | none => []

/-! ## `formatMillis` (main.js 115-120)

The argument `n` is a non-negative integer; the function receives the number nearest to
it.  The comparison `n < 1000` of that number with 1000 agrees with the comparison of the
integers. -/

/-- The function `formatMillis`. -/
def formatMillis (n : Nat) : Text :=
  if n < 1000 then
    (Double.ofNat ((Double.ofNat n).div 1000).floor).toText ++ " sec".toList
  else
    ((Double.ofNat ((Double.ofNat n).div 100).floor).div 10).toText ++ " sec".toList

/-! ## `processMergedOutputs` (main.js 153-196) -/

/-- One entry of `mergedOutputs`: `{ stderr, stdout, error }`, each possibly absent.
`error` is carried as the text `String(error)` produces. -/
structure MergedOutput where
  stderr : Option Text
  stdout : Option Text
  error : Option Text
deriving DecidableEq

/-- The template literal with `error` interpolated: an absent error prints as `undefined`. -/
def exceptionLine (error : Option Text) : Text :=
  "EXCEPTION: ".toList ++ (match error with
    | some e => e
    | none => "undefined".toList)

/-- The expression `stderr ?? stdout ?? EXCEPTION: error` of lines 171 and 191. -/
def rawLine (o : MergedOutput) : Text :=
  match o.stderr with
  | some s => s
  | none =>
    match o.stdout with
    | some s => s
    | none => exceptionLine o.error

/-- A test of `/^ERROR: Parser error in file "([^"]+)", line (\d+): (.*)$/` (line 176). -/
def matchesParserErrorInFile (s : Text) : Bool :=
  match stripPrefix? "ERROR: Parser error in file \"".toList s with
  | none => false
  | some r =>
    !(r.takeWhile (fun c => c != '"')).isEmpty &&
    match stripPrefix? "\", line ".toList (r.dropWhile (fun c => c != '"')) with
    | none => false
    | some r2 =>
      !(r2.takeWhile isDigit).isEmpty &&
      match stripPrefix? ": ".toList (r2.dropWhile isDigit) with
      | none => false
      | some r3 => r3.all (fun c => !isLineTerminator c)

/-- The tail ` in file ([^",]+), line (\d+)$` of the regular expression of line 181. -/
def parserErrorTail (r : Text) : Bool :=
  match stripPrefix? " in file ".toList r with
  | none => false
  | some r1 =>
    !(r1.takeWhile (fun c => c != '"' && c != ',')).isEmpty &&
    match stripPrefix? ", line ".toList (r1.dropWhile (fun c => c != '"' && c != ',')) with
    | none => false
    | some r2 => !r2.isEmpty && r2.all isDigit

/-- A test of `/^ERROR: Parser error: (.*?) in file ([^",]+), line (\d+)$/` (line 181). -/
def matchesParserError (s : Text) : Bool :=
  match stripPrefix? "ERROR: Parser error: ".toList s with
  | none => false
  | some r => lazyDotThen parserErrorTail r

/-- The tail ` in file ([^,]+), line (\d+)` of the regular expression of line 186; the
trailing `\.?` accepts anything. -/
def warningTail (r : Text) : Bool :=
  match stripPrefix? " in file ".toList r with
  | none => false
  | some r1 =>
    !(r1.takeWhile (fun c => c != ',')).isEmpty &&
    match stripPrefix? ", line ".toList (r1.dropWhile (fun c => c != ',')) with
    | none => false
    | some r2 => !(r2.takeWhile isDigit).isEmpty

/-- A test of `/^WARNING: (.*?),? in file ([^,]+), line (\d+)\.?/` (line 186). -/
def matchesWarning (s : Text) : Bool :=
  match stripPrefix? "WARNING: ".toList s with
  | none => false
  | some r =>
    lazyDotThen (fun r1 => warningTail r1 ||
      (match r1 with
        | ',' :: r2 => warningTail r2
        | _ => false)) r

/-- The local variables of `processMergedOutputs` that its loop updates. -/
structure Lines where
  allLines : List Text
  unmatchedLines : List Text
  errorCount : Nat
  warningCount : Nat
deriving DecidableEq

/-- One iteration of the loop of lines 170-192. -/
def classifyOne (acc : Lines) (o : MergedOutput) : Lines :=
  let acc1 := { acc with allLines := acc.allLines ++ [rawLine o] }
  match o.stderr with
  | some (c :: cs) =>
    let stderr := c :: cs
    let acc2 := { acc1 with
      errorCount := if startsWith stderr "ERROR:".toList then acc1.errorCount + 1
        else acc1.errorCount,
      warningCount := if startsWith stderr "WARNING:".toList then acc1.warningCount + 1
        else acc1.warningCount }
    if matchesParserErrorInFile stderr then acc2
    else if matchesParserError stderr then acc2
    else if matchesWarning stderr then acc2
    else { acc2 with unmatchedLines := acc2.unmatchedLines ++ [rawLine o] }
  | _ => { acc1 with unmatchedLines := acc1.unmatchedLines ++ [rawLine o] }

/-- The loop of lines 170-192 over `mergedOutputs`. -/
def classify (mergedOutputs : List MergedOutput) : Lines :=
  mergedOutputs.foldl classifyOne ⟨[], [], 0, 0⟩

/-- The value of `unmatchedLines` after line 193: the summary and an empty line are put
in front when a count is non-zero. -/
def unmatchedLinesWithSummary (l : Lines) : List Text :=
  if l.errorCount ≠ 0 ∨ l.warningCount ≠ 0 then
    (numberToString l.errorCount ++ " errors, ".toList ++ numberToString l.warningCount
        ++ " warnings!".toList) :: [] :: l.unmatchedLines
  else l.unmatchedLines

/-- A downloadable file: its name and its content. -/
structure StlFile where
  name : Text
  content : List Nat
deriving DecidableEq

/-- The module-level variables and DOM properties that the output classifier and the
render job write. -/
structure Page where
  lastProcessedOutputsTimestamp : Option Nat
  logsInnerText : Text
  metaInnerText : Text
  metaTitle : Text
  renderDisabled : Bool
  killDisabled : Bool
  stlFile : Option StlFile
  viewerModel : Option StlFile
  downloadLinks : List StlFile
deriving DecidableEq

/-- The function `processMergedOutputs`. -/
def processMergedOutputs (p : Page) (mergedOutputs : List MergedOutput) (timestamp : Nat) :
    Page :=
  if p.lastProcessedOutputsTimestamp.any (fun last => timestamp < last) then p
  else
    let l := classify mergedOutputs
    let _unmatchedLines := unmatchedLinesWithSummary l
    { p with
      lastProcessedOutputsTimestamp := some timestamp,
      logsInnerText := join "\n".toList l.allLines }

/-! ## The render job (main.js 231-304) -/

/-- The constant `model_path`. -/
def model_path : Text := "gridfinity_bins/gridfinity_basic_cup.scad".toList

/-- The constant `outstl_name`. -/
def outstl_name : Text := "grifinity_gen.stl".toList

/-- A default value of `model_default_params`; a numeric default keeps its literal. -/
inductive Default where
  | number (literal : String)
  | boolean (b : Bool)
  | string (s : String)
deriving DecidableEq

/-- The results of `typeof` that the script tells apart. -/
inductive JSType where
  | number
  | boolean
  | string
deriving DecidableEq

/-- The operator `typeof` on a default value. -/
def Default.typeof : Default → JSType
  | .number _ => .number
  | .boolean _ => .boolean
  | .string _ => .string

/-- The object `model_default_params`, as its entries in declaration order, which is the
order a `for ... in` loop visits them in. -/
def model_default_params : List (Text × Default) :=
  [ ("width".toList, .number "1"),
    ("depth".toList, .number "1"),
    ("height".toList, .number "6"),
    ("magnet_diameter".toList, .number "0"),
    ("screw_depth".toList, .number "0"),
    ("hole_overhang_remedy".toList, .boolean true),
    ("chambers".toList, .number "1"),
    ("withLabel".toList, .string "disabled"),
    ("fingerslide".toList, .boolean true),
    ("labelWidth".toList, .number "0"),
    ("wall_thickness".toList, .number "0.95"),
    ("efficient_floor".toList, .boolean false),
    ("lip_style".toList, .string "normal") ]

/-- The lookup `model_default_params[prop]`. -/
def defaultOf (prop : Text) : Option Default :=
  (model_default_params.find? (fun e => e.1 = prop)).map (fun e => e.2)

/-- JavaScript numbers as far as the script uses them on form input: the conversion
`Number(text)` and the conversion of a number to a string. -/
structure NumberModel where
  Num : Type
  ofText : Text → Num
  toText : Num → Text

/-- The properties of a form control that `getFormProp` reads. -/
structure FormControl where
  checked : Bool
  value : Text

/-- A value returned by `getFormProp`. -/
inductive FormValue (N : NumberModel) where
  | boolean (b : Bool)
  | number (n : N.Num)
  | string (s : Text)

/-- The function `getFormProp`; `document prop` is `document.getElementById(prop)`. -/
def getFormProp (N : NumberModel) (document : Text → FormControl) (prop : Text) :
    FormValue N :=
  let propType := (defaultOf prop).map Default.typeof
  let propElt := document prop
  if propType = some .boolean then .boolean propElt.checked
  else if propType = some .number then .number (N.ofText propElt.value)
  else .string propElt.value

/-- The conversion to a string that `+` applies to a value of `getFormProp`. -/
def FormValue.toText {N : NumberModel} : FormValue N → Text
  | .boolean b => if b then "true".toList else "false".toList
  | .number n => N.toText n
  | .string s => s

/-- The object `featureCheckboxes`: its keys in the order of `Object.keys`, and the
`checked` property of the checkbox stored under a key. -/
structure FeatureCheckboxes where
  keys : List Text
  checked : Text → Bool

/-- The array `arglist` of lines 240-255: the initial array literal, then the loop over
`model_default_params`, each iteration pushing two elements. -/
def renderArglist (N : NumberModel) (featureCheckboxes : FeatureCheckboxes)
    (document : Text → FormControl) : List Text :=
  let arglist : List Text :=
    ["input.scad".toList, "-o".toList, outstl_name] ++
      ((featureCheckboxes.keys.filter featureCheckboxes.checked).map
        (fun f => "--enable=".toList ++ f))
  model_default_params.foldl (fun arglist e =>
    let prop := e.1
    if e.2.typeof = .string then
      arglist ++ ["-D".toList,
        prop ++ "=\"".toList ++ (getFormProp N document prop).toText ++ "\"".toList]
    else
      arglist ++ ["-D".toList, prop ++ "=".toList ++ (getFormProp N document prop).toText])
    arglist

/-- The argument of `spawnOpenSCAD`. -/
structure JobDescriptor where
  inputs : List (Text × Text)
  args : List Text
  outputPaths : List Text
  zipArchives : List Text

/-- The call `spawnOpenSCAD({...})` of lines 259-264, as the descriptor it is given;
`model_dir` is the part of `model_path` before its first slash or backslash. -/
def renderJobDescriptor (N : NumberModel) (featureCheckboxes : FeatureCheckboxes)
    (document : Text → FormControl) : JobDescriptor :=
  let source := "include <".toList ++ model_path ++ ">".toList
  let model_dir := model_path.takeWhile (fun c => c != '\\' && c != '/')
  { inputs := [("input.scad".toList, source)],
    args := renderArglist N featureCheckboxes document,
    outputPaths := [outstl_name],
    zipArchives := [model_dir] }

/-- The value the promise `job` resolves to. -/
structure RunResult where
  mergedOutputs : List MergedOutput
  error : Option Text
  elapsedMillis : Nat
  outputs : List (Text × List Nat)

/-- The last fragment of `filePath.split('/')`. -/
def fileNameOf (filePath : Text) : Text :=
  ((filePath.splitOn '/').getLast?).getD []

/-- The function `viewStlFile`: the model in slot 1 of the viewer is removed and the file
in `stlFile` is added in its place. -/
def viewStlFile (p : Page) : Page :=
  { p with viewerModel := p.stlFile }

/-- The function `addDownloadLink` on the download container: a link to the file is
appended. -/
def addDownloadLink (p : Page) (file : StlFile) : Page :=
  { p with downloadLinks := p.downloadLinks ++ [file] }

/-- The `try` block of the completion of the render job (lines 270-293): the page it
leaves and the value it throws, if it throws.  `job` either rejects with an error or
resolves to a result. -/
def renderCompletionTry (p : Page) (job : Except Text RunResult) (timestamp : Nat) :
    Page × Option Text :=
  match job with
  | .error e => (p, some e)
  | .ok result =>
    let p1 := processMergedOutputs p result.mergedOutputs timestamp
    match result.error with
    | some e => (p1, some e)
    | none =>
      let p2 := { p1 with metaInnerText := formatMillis result.elapsedMillis }
      match result.outputs with
      | [] => (p2, some "No output from runner!".toList)
      | (filePath, content) :: _ =>
        let fileName := fileNameOf filePath
        let file : StlFile := { name := fileName, content := content }
        let p3 := viewStlFile { p2 with stlFile := some file }
        (addDownloadLink { p3 with downloadLinks := [] } file, none)

/-- The completion of the render job (lines 268-302): the `try` block, the `catch`
clause on a thrown value, and the `finally` clause. -/
def renderCompletion (p : Page) (job : Except Text RunResult) (timestamp : Nat) : Page :=
  let r := renderCompletionTry p job timestamp
  let p1 :=
    match r.2 with
    | some e => { r.1 with metaInnerText := "<failed>".toList, metaTitle := e }
    | none => r.1
  { p1 with killDisabled := true, renderDisabled := false }

/-! ## `turnIntoDelayableExecution` (main.js 200-228)

The executor is run by three kinds of event: a call of the returned function, the firing
of a timer that `setTimeout` scheduled and `clearTimeout` has not cancelled, and the
settling of the `completion` of a job that a `doExecute` invocation awaits, which resumes
that invocation in its `finally` clause.  An event carries the state `w` of the world it
happens in: a job factory reads the form when it is called.  Jobs are numbered in the
order of their creation, timers by the identifiers `setTimeout` returns, which are
positive and never reused. -/

/-- The calls the executor makes to its surroundings. -/
inductive Action (W : Type) where
  | clearTimeout (id : Nat)
  | setTimeout (id : Nat)
  | kill (job : Nat)
  | createJob (job : Nat) (w : W)
deriving DecidableEq

/-- The closure variables `pendingId` and `runningJobKillSignal`, with the surroundings
they refer to: the timers that are scheduled, the jobs created so far (each with the
world its factory read), the jobs whose completion is still awaited, and the calls made
so far. -/
structure Executor (W : Type) where
  pendingId : Option Nat
  runningJobKillSignal : Option Nat
  nextTimerId : Nat
  activeTimers : List Nat
  jobs : List W
  awaited : List Nat
  calls : List (Action W)
deriving DecidableEq

/-- The executor as `turnIntoDelayableExecution` returns it. -/
def Executor.init (W : Type) : Executor W :=
  { pendingId := none,
    runningJobKillSignal := none,
    nextTimerId := 1,
    activeTimers := [],
    jobs := [],
    awaited := [],
    calls := [] }

/-- The function `doExecute` up to its `await` (lines 205-212). -/
def doExecute {W : Type} (s : Executor W) (w : W) : Executor W :=
  let s1 :=
    match s.runningJobKillSignal with
    | some j => { s with calls := s.calls ++ [Action.kill j], runningJobKillSignal := none }
    | none => s
  let job := s1.jobs.length
  { s1 with
    jobs := s1.jobs ++ [w],
    calls := s1.calls ++ [Action.createJob job w],
    runningJobKillSignal := some job,
    awaited := s1.awaited ++ [job] }

/-- The rest of an invocation of `doExecute` that awaited job `j`: its `finally` clause
(line 214). -/
def doExecuteResume {W : Type} (s : Executor W) (j : Nat) : Executor W :=
  { s with awaited := s.awaited.erase j, runningJobKillSignal := none }

/-- The function that `turnIntoDelayableExecution` returns (lines 217-227). -/
def trigger {W : Type} (s : Executor W) (now : Bool) (w : W) : Executor W :=
  let s1 :=
    match s.pendingId with
    | some id =>
      { s with
        calls := s.calls ++ [Action.clearTimeout id],
        activeTimers := s.activeTimers.erase id,
        pendingId := none }
    | none => s
  if now then doExecute s1 w
  else
    let id := s1.nextTimerId
    { s1 with
      calls := s1.calls ++ [Action.setTimeout id],
      activeTimers := s1.activeTimers ++ [id],
      nextTimerId := id + 1,
      pendingId := some id }

/-- The events that run the executor. -/
inductive Event (W : Type) where
  | trigger (now : Bool) (w : W)
  | timerFires (id : Nat) (w : W)
  | completionSettles (job : Nat)
deriving DecidableEq

/-- One event; `none` when the event cannot happen in `s`: a timer fires only while it is
scheduled, a completion settles only while it is awaited. -/
def step {W : Type} (s : Executor W) : Event W → Option (Executor W)
  | .trigger now w => some (trigger s now w)
  | .timerFires id w =>
    if id ∈ s.activeTimers then
      some (doExecute { s with activeTimers := s.activeTimers.erase id } w)
    else none
  | .completionSettles j =>
    if j ∈ s.awaited then some (doExecuteResume s j) else none

/-- A sequence of events, from `s`. -/
def run {W : Type} (s : Executor W) : List (Event W) → Option (Executor W)
  | [] => some s
  | e :: es => (step s e).bind (fun s1 => run s1 es)

/-- The states the executor reaches from its initial state. -/
def Reachable {W : Type} (s : Executor W) : Prop :=
  ∃ es : List (Event W), run (Executor.init W) es = some s

/-! ## `normalizeSource` (main.js 322-328)

A call `src.replaceAll(re, replacement)` with a global regular expression scans `src`
from the left: at a position where `re` matches, the replacement is emitted and the scan
goes on behind the match; elsewhere the character is copied.  The four expressions of
`normalizeSource` match no empty string and look at nothing before the position, so an
expression is given by its match at the start of the text that is left. -/

/-- The scan of `replaceAll`: `matchAt rest` is the match of the expression at the start
of `rest`, as the replacement and the text behind the match; `fuel` bounds the steps. -/
def replaceAllFuel (matchAt : Text → Option (Text × Text)) : Nat → Text → Text
  | 0, s => s
  | _ + 1, [] => []
  | fuel + 1, c :: cs =>
    match matchAt (c :: cs) with
    | some (replacement, rest) => replacement ++ replaceAllFuel matchAt fuel rest
    | none => c :: replaceAllFuel matchAt fuel cs

/-- The method `replaceAll`: one step for each character suffices. -/
def replaceAll (matchAt : Text → Option (Text × Text)) (s : Text) : Text :=
  replaceAllFuel matchAt s.length s

/-- The regular-expression class `\s`, which is also what `trim` removes: white space
and line terminators. -/
def isSpace (c : Char) : Bool :=
  c = '\t' || c = '\n' || c = Char.ofNat 0x0B || c = Char.ofNat 0x0C || c = '\r' ||
  c = ' ' || c = Char.ofNat 0xA0 || c = Char.ofNat 0x1680 ||
  (0x2000 ≤ c.toNat && c.toNat ≤ 0x200A) ||
  c = Char.ofNat 0x2028 || c = Char.ofNat 0x2029 || c = Char.ofNat 0x202F ||
  c = Char.ofNat 0x205F || c = Char.ofNat 0x3000 || c = Char.ofNat 0xFEFF

/-- The class `[,.({]`. -/
def isPunct (c : Char) : Bool := c = ',' || c = '.' || c = '(' || c = '{'

/-- The rest of `.*?\*\/`: the text behind the first `*/`, which no line terminator may
precede. -/
def blockEnd : Text → Option Text
  | [] => none
  | '*' :: '/' :: rest => some rest
  | c :: rest => if isLineTerminator c then none else blockEnd rest

/-- The expression `/\/\*.*?\*\/|\/\/.*?$/gm`, replaced by the empty string: a block
comment that closes before the line ends, or else a line comment up to the end of its
line. -/
def matchComment : Text → Option (Text × Text)
  | '/' :: '*' :: rest => (blockEnd rest).map (fun r => ([], r))
  | '/' :: '/' :: rest => some ([], rest.dropWhile (fun c => !isLineTerminator c))
  | _ => none

/-- The expression `/([,.({])\s+/gm`, replaced by `$1`. -/
def matchPunctSpace : Text → Option (Text × Text)
  | c :: w :: rest =>
    if isPunct c && isSpace w then some ([c], rest.dropWhile isSpace) else none
  | _ => none

/-- The expression `/\s+([,.({])/gm`, replaced by `$1`. -/
def matchSpacePunct : Text → Option (Text × Text)
  | w :: rest =>
    if isSpace w then
      match rest.dropWhile isSpace with
      | c :: rest1 => if isPunct c then some ([c], rest1) else none
      | [] => none
    else none
  | [] => none

/-- The expression `/\s+/gm`, replaced by one space. -/
def matchSpace : Text → Option (Text × Text)
  | w :: rest => if isSpace w then some ([' '], rest.dropWhile isSpace) else none
  | [] => none

/-- The method `trim`. -/
def trim (s : Text) : Text :=
  ((s.dropWhile isSpace).reverse.dropWhile isSpace).reverse

/-- The function `normalizeSource`. -/
def normalizeSource (src : Text) : Text :=
  trim (replaceAll matchSpace (replaceAll matchSpacePunct (replaceAll matchPunctSpace
    (replaceAll matchComment src))))

/-! ## State snapshot and change detection (main.js 308-377) -/

/-- The property `source` of a snapshot; `name` is the variable `sourceFileName`, which
is `undefined` until `setState` has run. -/
structure SourceDescriptor where
  name : Option Text
  content : Text
deriving DecidableEq

/-- The object `getState` returns.  `camera` is `null` or the camera state of the viewer,
carried as the text `JSON.stringify` gives for it. -/
structure State where
  source : SourceDescriptor
  autorotate : Bool
  features : List Text
  viewerFocused : Bool
  camera : Option Text
deriving DecidableEq

/-- What `getState` reads: the feature checkboxes, `sourceFileName`, the autorotate
checkbox, the class `focused` of the viewer element and the camera of the viewer. -/
structure UI where
  featureCheckboxes : FeatureCheckboxes
  sourceFileName : Option Text
  autorotateChecked : Bool
  viewerFocused : Bool
  cameraState : Text

/-- The variable `persistCameraState`, which the script initialises to `false` and never
assigns. -/
def persistCameraState : Bool := false

/-- The function `getState`. -/
def getState (ui : UI) : State :=
  let features := ui.featureCheckboxes.keys.filter ui.featureCheckboxes.checked
  { source := { name := ui.sourceFileName,
                content := "include <".toList ++ model_path ++ ">".toList },
    autorotate := ui.autorotateChecked,
    features := features,
    viewerFocused := ui.viewerFocused,
    camera := if persistCameraState then some ui.cameraState else none }

/-- The function `normalizeStateForCompilation`. -/
def normalizeStateForCompilation (state : State) : State :=
  { state with
    source := { state.source with content := normalizeSource state.source.content } }

/-- A hexadecimal digit, in lower case. -/
def hexDigit (n : Nat) : Char :=
  if n < 10 then Char.ofNat (48 + n) else Char.ofNat (87 + n)

/-- The escape of one character in `JSON.stringify` of a string (QuoteJSONString). -/
def escapeChar (c : Char) : Text :=
  if c = Char.ofNat 8 then ['\\', 'b']
  else if c = '\t' then ['\\', 't']
  else if c = '\n' then ['\\', 'n']
  else if c = Char.ofNat 12 then ['\\', 'f']
  else if c = '\r' then ['\\', 'r']
  else if c = '"' then ['\\', '"']
  else if c = '\\' then ['\\', '\\']
  else if c.toNat < 32 then
    ['\\', 'u', '0', '0', hexDigit (c.toNat / 16), hexDigit (c.toNat % 16)]
  else [c]

/-- The result of `JSON.stringify` on a string. -/
def quoteJSONString (s : Text) : Text :=
  '"' :: (s.flatMap escapeChar ++ ['"'])

/-- The result of `JSON.stringify` on a boolean. -/
def stringifyBool (b : Bool) : Text := if b then "true".toList else "false".toList

/-- The elements of an array of strings in `JSON.stringify`, separated by commas. -/
def stringifyElements : List Text → Text
  | [] => []
  | [x] => quoteJSONString x
  | x :: y :: rest => quoteJSONString x ++ ',' :: stringifyElements (y :: rest)

/-- The result of `JSON.stringify` on a source descriptor; a property whose value is
`undefined` is left out. -/
def stringifySource (src : SourceDescriptor) : Text :=
  "\x7b".toList ++
    (match src.name with
      | some n => "\"name\":".toList ++ quoteJSONString n ++ ",".toList
      | none => []) ++
    "\"content\":".toList ++ quoteJSONString src.content ++ "\x7d".toList

/-- The result of `JSON.stringify` on a snapshot: its properties in the order `getState`
creates them, which the spread in `normalizeStateForCompilation` keeps. -/
def stringifyState (st : State) : Text :=
  "\x7b\"source\":".toList ++ stringifySource st.source ++
  ",\"autorotate\":".toList ++ stringifyBool st.autorotate ++
  ",\"features\":[".toList ++ stringifyElements st.features ++
  "],\"viewerFocused\":".toList ++ stringifyBool st.viewerFocused ++
  ",\"camera\":".toList ++
    (match st.camera with
      | some c => c
      | none => "null".toList) ++
  "\x7d".toList

/-- The call `JSON.stringify(x)` for `x` a snapshot or `undefined`; on `undefined` the
result is `undefined`. -/
def stringify (x : Option State) : Option Text := x.map stringifyState

/-- What `onStateChanged` leaves: the variable `previousNormalizedState`, the style
property `display` of the features container, and the calls of `render` it made, each
with the value of `now`. -/
structure Changed where
  previousNormalizedState : Option State
  featuresDisplay : Text
  renderCalls : List Bool
deriving DecidableEq

/-- The function `onStateChanged`. -/
def onStateChanged (previousNormalizedState : Option State) (ui : UI) (allowRun : Bool) :
    Changed :=
  let newState := getState ui
  let normalizedState := normalizeStateForCompilation newState
  if stringify previousNormalizedState ≠ stringify (some normalizedState) then
    { previousNormalizedState := some normalizedState,
      featuresDisplay := "none".toList,
      renderCalls := if allowRun then [false] else [] }
  else
    { previousNormalizedState := previousNormalizedState,
      featuresDisplay := "none".toList,
      renderCalls := [] }

/-! ## Definitions for the statements and their proofs -/

/-- The decimal rendering of `k / 10` for a natural number `k`: the digits of the integer
part, then, unless `k / 10` is an integer, a point and the one fractional digit. -/
def tenthsToString (k : Nat) : Text :=
  if k % 10 = 0 then numberToString (k / 10)
  else numberToString (k / 10) ++ '.' :: numberToString (k % 10)

/-- The value of a number. -/
def Double.val (x : Double) : ℚ := (x.m : ℚ) * (2 : ℚ) ^ x.e

/-- The value a decimal numeral denotes. -/
def decimalValue (ds : Text) : Nat :=
  ds.foldl (fun a c => 10 * a + (c.toNat - 48)) 0

/-- The number a text of the form `digits` or `digits.digit` shows, in tenths. -/
def readTenths (t : Text) : Option Nat :=
  if (t.takeWhile isDigit).isEmpty then none
  else
    match t.dropWhile isDigit with
    | [] => some (10 * decimalValue (t.takeWhile isDigit))
    | ['.', d] =>
      if isDigit d then some (10 * decimalValue (t.takeWhile isDigit) + (d.toNat - 48))
      else none
    | _ => none

/-- A sequence of calls of `processMergedOutputs`, each with its batch and timestamp. -/
def processAll (p : Page) (calls : List (List MergedOutput × Nat)) : Page :=
  calls.foldl (fun p c => processMergedOutputs p c.1 c.2) p

/-- Following the words of the specification: the timestamp of the most recently accepted
batch of a sequence of batches, where a batch is discarded if its timestamp is strictly
less than the last accepted timestamp and is accepted otherwise. -/
def mostRecentlyAccepted (calls : List (List MergedOutput × Nat)) : Option Nat :=
  calls.foldl (fun last c =>
    match last with
    | some a => if c.2 < a then some a else some c.2
    | none => some c.2) none

/-- Non-negative integers written in decimal, as an instance of the numbers of a form. -/
def decimalNumbers : NumberModel :=
  { Num := Nat, ofText := decimalValue, toText := numberToString }

/-- A page on which nothing has been shown yet. -/
def blankPage : Page :=
  { lastProcessedOutputsTimestamp := none,
    logsInnerText := [],
    metaInnerText := [],
    metaTitle := [],
    renderDisabled := false,
    killDisabled := true,
    stlFile := none,
    viewerModel := none,
    downloadLinks := [] }

/-- A batch entry that only has text on `stderr`. -/
def stderrLine (s : String) : MergedOutput :=
  { stderr := some s.toList, stdout := none, error := none }

/-- An executor with a job running and a timer pending: the returned function has been
called with `now = true` and then with `now = false`. -/
def busyExecutor : Executor Unit :=
  trigger (trigger (Executor.init Unit) true ()) false ()

/-- What holds in every reachable state of the executor: identifiers of scheduled timers
are below the next identifier, only the timer in `pendingId` can be scheduled, and a
kill handle that is held belongs to the most recently created job, which is awaited and
has not been killed. -/
structure Executor.Inv {W : Type} (s : Executor W) : Prop where
  pending_lt : ∀ id, s.pendingId = some id → id < s.nextTimerId
  active_pending : ∀ id ∈ s.activeTimers, s.pendingId = some id
  active_nodup : s.activeTimers.Nodup
  signal_last : ∀ j, s.runningJobKillSignal = some j → j + 1 = s.jobs.length
  signal_awaited : ∀ j, s.runningJobKillSignal = some j → j ∈ s.awaited
  signal_not_killed : ∀ j, s.runningJobKillSignal = some j → Action.kill j ∉ s.calls
  awaited_lt : ∀ j ∈ s.awaited, j < s.jobs.length
  killed_lt : ∀ j, Action.kill j ∈ s.calls → j < s.jobs.length

/-- The executor `s` after `k + 1` calls with `now = false` and nothing else, from a
state `s0` in which no timer was scheduled and no kill handle was held. -/
structure Executor.Debounced {W : Type} (s0 s : Executor W) (k : Nat) : Prop where
  pending : s.pendingId = some (s0.nextTimerId + k)
  active : s.activeTimers = [s0.nextTimerId + k]
  next : s.nextTimerId = s0.nextTimerId + k + 1
  jobs : s.jobs = s0.jobs
  signal : s.runningJobKillSignal = none
  awaited : s.awaited = s0.awaited
  calls : ∃ new, s.calls = s0.calls ++ new ∧ ∀ a ∈ new, ∀ j w, a ≠ Action.createJob j w

/-- An executor that has run one job to its end and is idle again: the returned function
was called with `now = false`, the timer fired, and the completion of the job settled. -/
def idleExecutor : Executor Nat :=
  doExecuteResume
    (doExecute { trigger (Executor.init Nat) false 1 with activeTimers := [] } 2) 0

/-- The value of a hexadecimal digit. -/
def hexValue (c : Char) : Nat :=
  if c.toNat < 58 then c.toNat - 48 else c.toNat - 87

/-- The character that an escape denotes, read from the text behind its backslash, and
the text behind the escape. -/
def unescapeAfterBackslash : Text → Option (Char × Text)
  | 'b' :: r1 => some (Char.ofNat 8, r1)
  | 't' :: r1 => some ('\t', r1)
  | 'n' :: r1 => some ('\n', r1)
  | 'f' :: r1 => some (Char.ofNat 12, r1)
  | 'r' :: r1 => some ('\r', r1)
  | '"' :: r1 => some ('"', r1)
  | '\\' :: r1 => some ('\\', r1)
  | 'u' :: '0' :: '0' :: h1 :: h2 :: r1 =>
    some (Char.ofNat (16 * hexValue h1 + hexValue h2), r1)
  | _ => none

/-- The first character of the content of a JSON string, read back from its escape, and
the text behind it. -/
def unescape : Text → Option (Char × Text)
  | [] => none
  | c :: r => if c = '\\' then unescapeAfterBackslash r else some (c, r)

/-- Where the scan for comments stands at the end of a text: in code, behind a slash
that the next character may turn into the start of a comment, or inside a comment that
is still open. -/
inductive ScanEnd where
  | code
  | slash
  | comment
deriving DecidableEq

/-- The scan for comments of `normalizeSource` over a text, up to its end.  A `/*` whose
line ends before a `*/` starts no comment; one whose line is cut off by the end of the
text is open, as is a `//` whose line is cut off by the end of the text. -/
def scanEndFuel : Nat → Text → ScanEnd
  | 0, _ => .code
  | _ + 1, [] => .code
  | fuel + 1, '/' :: '*' :: rest =>
    match blockEnd rest with
    | some r => scanEndFuel fuel r
    | none =>
      if rest.any isLineTerminator then scanEndFuel fuel ('*' :: rest) else .comment
  | fuel + 1, '/' :: '/' :: rest =>
    if rest.any isLineTerminator then
      scanEndFuel fuel (rest.dropWhile (fun c => !isLineTerminator c))
    else .comment
  | _ + 1, ['/'] => .slash
  | fuel + 1, _ :: rest => scanEndFuel fuel rest

/-- Where the scan for comments stands at the end of `u`. -/
def scanEnd (u : Text) : ScanEnd := scanEndFuel u.length u

/-- One cosmetic edit of a source text: a block comment that opens and closes on one line,
or a line comment that runs to the end of its line, is inserted where the text before it
ends in code; or a run of whitespace that does not begin inside a comment is replaced by
another run of whitespace. -/
inductive CosmeticEdit : Text → Text → Prop where
  | blockComment (u c v : Text) :
      scanEnd u = .code →
      (∀ x ∈ c, isLineTerminator x = false) →
      ¬ "*/".toList <:+: c →
      CosmeticEdit (u ++ v) (u ++ ("/*".toList ++ c ++ "*/".toList) ++ v)
  | lineComment (u c v : Text) :
      scanEnd u = .code →
      (∀ x ∈ c, isLineTerminator x = false) →
      (∀ x, v.head? = some x → isLineTerminator x = true) →
      CosmeticEdit (u ++ v) (u ++ ("//".toList ++ c) ++ v)
  | whitespace (u w1 w2 v : Text) :
      scanEnd u ≠ .comment →
      w1 ≠ [] → w2 ≠ [] →
      (∀ x ∈ w1, isSpace x = true) → (∀ x ∈ w2, isSpace x = true) →
      CosmeticEdit (u ++ w1 ++ v) (u ++ w2 ++ v)

/-- A matcher whose matches are never empty: the text behind a match is shorter. -/
def Shrinks (m : Text → Option (Text × Text)) : Prop :=
  ∀ s r rest, m s = some (r, rest) → rest.length < s.length

/-! # Theorems -/

/-! ## `formatMillis` -/

theorem digitChar_isDigit (d : Nat) (h : d < 10) :
    isDigit (Nat.digitChar d) = true ∧ (Nat.digitChar d).toNat - 48 = d := by
  interval_cases d <;> decide

theorem decimalValue_append_single (pre : Text) (c : Char) :
    decimalValue (pre ++ [c]) = 10 * decimalValue pre + (c.toNat - 48) := by
  simp [decimalValue, List.foldl_append]

theorem toDigitsCore_reads (fuel : Nat) : ∀ (n : Nat) (ds : Text), n < fuel →
    ∃ pre : Text, Nat.toDigitsCore 10 fuel n ds = pre ++ ds ∧ pre ≠ [] ∧
      (∀ c ∈ pre, isDigit c = true) ∧ decimalValue pre = n := by
  induction fuel with
  | zero => intro n ds h; omega
  | succ fuel ih =>
    intro n ds h
    have hd := digitChar_isDigit (n % 10) (Nat.mod_lt _ (by decide))
    simp only [Nat.toDigitsCore]
    by_cases h0 : n / 10 = 0
    · refine ⟨[Nat.digitChar (n % 10)], by simp [h0], by simp, ?_, ?_⟩
      · intro c hc
        simp only [List.mem_singleton] at hc
        rw [hc]; exact hd.1
      · simp only [decimalValue, List.foldl_cons, List.foldl_nil]
        rw [hd.2]; omega
    · obtain ⟨pre, hpre, hne, hdig, hval⟩ :=
        ih (n / 10) (Nat.digitChar (n % 10) :: ds) (by omega)
      refine ⟨pre ++ [Nat.digitChar (n % 10)], by simp [h0, hpre], by simp, ?_, ?_⟩
      · intro c hc
        rcases List.mem_append.1 hc with hc | hc
        · exact hdig c hc
        · simp only [List.mem_singleton] at hc
          rw [hc]; exact hd.1
      · rw [decimalValue_append_single, hval, hd.2]; omega

theorem numberToString_reads (k : Nat) :
    numberToString k ≠ [] ∧ (∀ c ∈ numberToString k, isDigit c = true) ∧
      decimalValue (numberToString k) = k := by
  obtain ⟨pre, hpre, hne, hdig, hval⟩ := toDigitsCore_reads (k + 1) k [] (by omega)
  simp only [List.append_nil] at hpre
  simp only [numberToString, Nat.toDigits, hpre]
  exact ⟨hne, hdig, hval⟩

theorem takeWhile_digits (ds rest : Text) (h : ∀ c ∈ ds, isDigit c = true)
    (hr : ∀ c, rest.head? = some c → isDigit c = false) :
    (ds ++ rest).takeWhile isDigit = ds ∧ (ds ++ rest).dropWhile isDigit = rest := by
  induction ds with
  | nil =>
    cases rest with
    | nil => simp
    | cons c cs => simp [hr c rfl]
  | cons d ds ih =>
    have hd := h d (by simp)
    have := ih (fun c hc => h c (by simp [hc]))
    simp [hd, this]

theorem readTenths_of_digits (ds : Text) (hne : ds ≠ []) (hdig : ∀ c ∈ ds, isDigit c = true) :
    readTenths ds = some (10 * decimalValue ds) ∧
    ∀ d, isDigit d = true →
      readTenths (ds ++ ['.', d]) = some (10 * decimalValue ds + (d.toNat - 48)) := by
  have ht := takeWhile_digits ds [] hdig (by simp)
  simp only [List.append_nil] at ht
  have hemp : ds.isEmpty = false := by
    cases ds with
    | nil => exact absurd rfl hne
    | cons c cs => rfl
  refine ⟨by simp [readTenths, ht.1, ht.2, hemp], ?_⟩
  intro d hd
  have ht2 := takeWhile_digits ds ['.', d] hdig (by simp; decide)
  simp [readTenths, ht2.1, ht2.2, hemp, hd]

theorem readTenths_tenthsToString (k : Nat) : readTenths (tenthsToString k) = some k := by
  obtain ⟨hne, hdig, hval⟩ := numberToString_reads (k / 10)
  have hr := readTenths_of_digits _ hne hdig
  unfold tenthsToString
  split
  · rw [hr.1, hval]
    congr 1; omega
  · have hlt : k % 10 < 10 := Nat.mod_lt _ (by decide)
    have hone : numberToString (k % 10) = [Nat.digitChar (k % 10)] := by
      simp [numberToString, Nat.toDigits, Nat.toDigitsCore, Nat.div_eq_of_lt hlt,
        Nat.mod_eq_of_lt hlt]
    have hd := digitChar_isDigit (k % 10) hlt
    rw [hone, hr.2 _ hd.1, hval, hd.2]
    congr 1; omega

/-! ## `processMergedOutputs` -/

theorem classifyOne_allLines (acc : Lines) (o : MergedOutput) :
    (classifyOne acc o).allLines = acc.allLines ++ [rawLine o] := by
  unfold classifyOne
  split
  · simp only []
    split_ifs <;> rfl
  · rfl

theorem foldl_classifyOne_allLines (outs : List MergedOutput) : ∀ acc : Lines,
    (outs.foldl classifyOne acc).allLines = acc.allLines ++ outs.map rawLine := by
  induction outs with
  | nil => intro acc; simp
  | cons o outs ih =>
    intro acc
    simp [List.foldl_cons, ih, classifyOne_allLines]

theorem classify_allLines (outs : List MergedOutput) :
    (classify outs).allLines = outs.map rawLine := by
  simp [classify, foldl_classifyOne_allLines]

theorem processMergedOutputs_stale (p : Page) (outs : List MergedOutput) (t a : Nat)
    (ha : p.lastProcessedOutputsTimestamp = some a) (h : t < a) :
    processMergedOutputs p outs t = p := by
  simp [processMergedOutputs, ha, h]

theorem processMergedOutputs_fresh (p : Page) (outs : List MergedOutput) (t : Nat)
    (h : ∀ a, p.lastProcessedOutputsTimestamp = some a → ¬ t < a) :
    processMergedOutputs p outs t =
      { p with
        lastProcessedOutputsTimestamp := some t,
        logsInnerText := join "\n".toList (outs.map rawLine) } := by
  have hany : p.lastProcessedOutputsTimestamp.any (fun last => decide (t < last)) = false := by
    cases hl : p.lastProcessedOutputsTimestamp with
    | none => rfl
    | some a => simpa using h a hl
  simp [processMergedOutputs, hany, classify_allLines]

theorem processAll_append (p : Page) (calls : List (List MergedOutput × Nat))
    (c : List MergedOutput × Nat) :
    processAll p (calls ++ [c]) = processMergedOutputs (processAll p calls) c.1 c.2 := by
  simp [processAll, List.foldl_append]

theorem mostRecentlyAccepted_append (calls : List (List MergedOutput × Nat))
    (c : List MergedOutput × Nat) :
    mostRecentlyAccepted (calls ++ [c]) =
      (match mostRecentlyAccepted calls with
        | some a => if c.2 < a then some a else some c.2
        | none => some c.2) := by
  simp [mostRecentlyAccepted, List.foldl_append]

theorem processAll_last (p0 : Page) (h0 : p0.lastProcessedOutputsTimestamp = none)
    (calls : List (List MergedOutput × Nat)) :
    (processAll p0 calls).lastProcessedOutputsTimestamp = mostRecentlyAccepted calls := by
  induction calls using List.reverseRecOn with
  | nil => simpa [processAll, mostRecentlyAccepted] using h0
  | append_singleton calls c ih =>
    rw [processAll_append, mostRecentlyAccepted_append]
    cases hm : mostRecentlyAccepted calls with
    | none =>
      rw [hm] at ih
      rw [processMergedOutputs_fresh _ _ _ (by intro a ha; rw [ih] at ha; cases ha)]
    | some a =>
      rw [hm] at ih
      by_cases hlt : c.2 < a
      · rw [processMergedOutputs_stale _ _ _ a ih hlt]
        simp [hlt, ih]
      · rw [processMergedOutputs_fresh _ _ _
          (by intro b hb; rw [ih] at hb; cases hb; exact hlt)]
        simp [hlt]

/-- C2: after any sequence of calls of `processMergedOutputs` on a page that has accepted
nothing yet, `lastProcessedOutputsTimestamp` is the timestamp of the most recently
accepted call; a further call whose timestamp is strictly less than it leaves the page,
and with it the displayed log and `lastProcessedOutputsTimestamp`, unchanged; every other
call sets `lastProcessedOutputsTimestamp` to its own timestamp and replaces the displayed
log by the lines of its batch. -/
theorem processMergedOutputs_timestamp_guard (p0 : Page)
    (h0 : p0.lastProcessedOutputsTimestamp = none)
    (calls : List (List MergedOutput × Nat)) (outs : List MergedOutput) (t : Nat) :
    (processAll p0 calls).lastProcessedOutputsTimestamp = mostRecentlyAccepted calls ∧
    ((∃ a, mostRecentlyAccepted calls = some a ∧ t < a) →
      processMergedOutputs (processAll p0 calls) outs t = processAll p0 calls) ∧
    ((¬ ∃ a, mostRecentlyAccepted calls = some a ∧ t < a) →
      (processMergedOutputs (processAll p0 calls) outs t).lastProcessedOutputsTimestamp
          = some t ∧
      (processMergedOutputs (processAll p0 calls) outs t).logsInnerText
          = join "\n".toList (outs.map rawLine)) := by
  have hl := processAll_last p0 h0 calls
  refine ⟨hl, ?_, ?_⟩
  · rintro ⟨a, ha, hlt⟩
    exact processMergedOutputs_stale _ _ _ a (hl.trans ha) hlt
  · intro hno
    rw [processMergedOutputs_fresh _ _ _
      (fun a ha hlt => hno ⟨a, (hl.symm.trans ha), hlt⟩)]
    exact ⟨rfl, rfl⟩

/-- C2 on the batches A (t = 100), B (t = 90) and C (t = 150): A is accepted, B arriving
after A is discarded, C arriving after B is accepted. -/
theorem processMergedOutputs_timestamp_guard_witness :
    (processAll blankPage [([stderrLine "A"], 100)]).logsInnerText = "A".toList ∧
    processMergedOutputs (processAll blankPage [([stderrLine "A"], 100)])
        [stderrLine "B"] 90
      = processAll blankPage [([stderrLine "A"], 100)] ∧
    (processMergedOutputs (processAll blankPage [([stderrLine "A"], 100),
        ([stderrLine "B"], 90)]) [stderrLine "C"] 150).lastProcessedOutputsTimestamp
      = some 150 ∧
    (processMergedOutputs (processAll blankPage [([stderrLine "A"], 100),
        ([stderrLine "B"], 90)]) [stderrLine "C"] 150).logsInnerText = "C".toList :=
  ⟨by decide,
   (processMergedOutputs_timestamp_guard blankPage rfl [([stderrLine "A"], 100)]
      [stderrLine "B"] 90).2.1 ⟨100, by decide, by decide⟩,
   ((processMergedOutputs_timestamp_guard blankPage rfl
      [([stderrLine "A"], 100), ([stderrLine "B"], 90)] [stderrLine "C"] 150).2.2
        (by decide)).1,
   ((processMergedOutputs_timestamp_guard blankPage rfl
      [([stderrLine "A"], 100), ([stderrLine "B"], 90)] [stderrLine "C"] 150).2.2
        (by decide)).2.trans (by decide)⟩

/-- C3 on a batch with two errors and one warning, accepted on a blank page: the counts
are 2 and 1, the summary `2 errors, 1 warnings!` and an empty line are put in front of
`unmatchedLines`, and the displayed log is the three raw lines, without the summary. -/
theorem processMergedOutputs_summary_not_shown :
    (classify [stderrLine "ERROR: a", stderrLine "ERROR: b",
        stderrLine "WARNING: c"]).errorCount = 2 ∧
    (classify [stderrLine "ERROR: a", stderrLine "ERROR: b",
        stderrLine "WARNING: c"]).warningCount = 1 ∧
    unmatchedLinesWithSummary (classify [stderrLine "ERROR: a", stderrLine "ERROR: b",
        stderrLine "WARNING: c"])
      = ["2 errors, 1 warnings!".toList, [], "ERROR: a".toList, "ERROR: b".toList,
          "WARNING: c".toList] ∧
    (processMergedOutputs blankPage [stderrLine "ERROR: a", stderrLine "ERROR: b",
        stderrLine "WARNING: c"] 1).lastProcessedOutputsTimestamp = some 1 ∧
    (processMergedOutputs blankPage [stderrLine "ERROR: a", stderrLine "ERROR: b",
        stderrLine "WARNING: c"] 1).logsInnerText
      = "ERROR: a\nERROR: b\nWARNING: c".toList := by
  decide

/-! ## The render job -/

/-- The two elements that one iteration of the loop of lines 247-255 pushes. -/
theorem paramArgs_eq (N : NumberModel) (document : Text → FormControl)
    (e : Text × Default) (h : defaultOf e.1 = some e.2) :
    (if e.2.typeof = .string then
      ["-D".toList,
        e.1 ++ "=\"".toList ++ (getFormProp N document e.1).toText ++ "\"".toList]
    else
      ["-D".toList, e.1 ++ "=".toList ++ (getFormProp N document e.1).toText]) =
    ["-D".toList,
      e.1 ++ "=".toList ++
        (match e.2 with
          | .string _ => "\"".toList ++ (document e.1).value ++ "\"".toList
          | .number _ => N.toText (N.ofText (document e.1).value)
          | .boolean _ =>
            if (document e.1).checked then "true".toList else "false".toList)] := by
  obtain ⟨p, d⟩ := e
  simp only at h
  cases d <;>
    simp [getFormProp, h, Default.typeof, FormValue.toText, List.append_assoc]

theorem foldl_paramArgs (N : NumberModel) (document : Text → FormControl)
    (l : List (Text × Default)) (hl : ∀ e ∈ l, defaultOf e.1 = some e.2) :
    ∀ acc : List Text,
    l.foldl (fun arglist e =>
      if e.2.typeof = .string then
        arglist ++ ["-D".toList,
          e.1 ++ "=\"".toList ++ (getFormProp N document e.1).toText ++ "\"".toList]
      else
        arglist ++ ["-D".toList, e.1 ++ "=".toList ++ (getFormProp N document e.1).toText])
      acc =
    acc ++ l.flatMap (fun e =>
      ["-D".toList,
        e.1 ++ "=".toList ++
          (match e.2 with
            | .string _ => "\"".toList ++ (document e.1).value ++ "\"".toList
            | .number _ => N.toText (N.ofText (document e.1).value)
            | .boolean _ =>
              if (document e.1).checked then "true".toList else "false".toList)]) := by
  induction l with
  | nil => intro acc; simp
  | cons e l ih =>
    intro acc
    have he := paramArgs_eq N document e (hl e (by simp))
    rw [List.foldl_cons, ih (fun x hx => hl x (by simp [hx])), List.flatMap_cons, ← he]
    split_ifs <;> simp

theorem defaultOf_entries : ∀ e ∈ model_default_params, defaultOf e.1 = some e.2 := by
  decide

/-- C1: the argument list the render job passes to `spawnOpenSCAD` is `input.scad`, `-o`,
`grifinity_gen.stl`, then `--enable=f` for each checked feature `f` in key order, then for
each parameter `p` of `model_default_params` in declaration order `-D` and `p=v`, where
`v` is the form value in double quotes when the default is a string and the unquoted
form value when it is a number or a boolean; in particular the element for `withLabel`
with form value `left` is `withLabel="left"`, the element for `hole_overhang_remedy`
checked is `hole_overhang_remedy=true`, and the element for `height` is `height=` followed
by the rendering of the number read from the form. -/
theorem renderArglist_spec (N : NumberModel) (featureCheckboxes : FeatureCheckboxes)
    (document : Text → FormControl) :
    (renderJobDescriptor N featureCheckboxes document).args =
      ["input.scad".toList, "-o".toList, "grifinity_gen.stl".toList] ++
      (featureCheckboxes.keys.filter featureCheckboxes.checked).map
        (fun f => "--enable=".toList ++ f) ++
      model_default_params.flatMap (fun e =>
        ["-D".toList,
          e.1 ++ "=".toList ++
            (match e.2 with
              | .string _ => "\"".toList ++ (document e.1).value ++ "\"".toList
              | .number _ => N.toText (N.ofText (document e.1).value)
              | .boolean _ =>
                if (document e.1).checked then "true".toList else "false".toList)]) ∧
    ((document "withLabel".toList).value = "left".toList →
      "withLabel=\"left\"".toList ∈ (renderJobDescriptor N featureCheckboxes document).args) ∧
    ((document "hole_overhang_remedy".toList).checked = true →
      "hole_overhang_remedy=true".toList
        ∈ (renderJobDescriptor N featureCheckboxes document).args) ∧
    (N.toText (N.ofText (document "height".toList).value) = "6".toList →
      "height=6".toList ∈ (renderJobDescriptor N featureCheckboxes document).args) := by
  have hargs : (renderJobDescriptor N featureCheckboxes document).args =
      ["input.scad".toList, "-o".toList, "grifinity_gen.stl".toList] ++
      (featureCheckboxes.keys.filter featureCheckboxes.checked).map
        (fun f => "--enable=".toList ++ f) ++
      model_default_params.flatMap (fun e =>
        ["-D".toList,
          e.1 ++ "=".toList ++
            (match e.2 with
              | .string _ => "\"".toList ++ (document e.1).value ++ "\"".toList
              | .number _ => N.toText (N.ofText (document e.1).value)
              | .boolean _ =>
                if (document e.1).checked then "true".toList else "false".toList)]) := by
    simp only [renderJobDescriptor, renderArglist]
    rw [foldl_paramArgs N document _ defaultOf_entries]
    rfl
  refine ⟨hargs, ?_, ?_, ?_⟩
  · intro h
    rw [hargs]
    refine List.mem_append_right _ (List.mem_flatMap.2
      ⟨("withLabel".toList, .string "disabled"), by decide, ?_⟩)
    simp only [h]
    decide
  · intro h
    rw [hargs]
    refine List.mem_append_right _ (List.mem_flatMap.2
      ⟨("hole_overhang_remedy".toList, .boolean true), by decide, ?_⟩)
    simp only [h]
    decide
  · intro h
    rw [hargs]
    refine List.mem_append_right _ (List.mem_flatMap.2
      ⟨("height".toList, .number "6"), by decide, ?_⟩)
    simp only [h]
    decide

/-- C1 on a form where every control has the value `6`, is checked, and the numbers are
non-negative decimal integers; no feature is checked. -/
theorem renderArglist_spec_witness :
    "height=6".toList ∈ (renderJobDescriptor decimalNumbers ⟨[], fun _ => false⟩
      (fun _ => ⟨true, "6".toList⟩)).args ∧
    "hole_overhang_remedy=true".toList ∈ (renderJobDescriptor decimalNumbers
      ⟨[], fun _ => false⟩ (fun _ => ⟨true, "6".toList⟩)).args :=
  ⟨(renderArglist_spec decimalNumbers ⟨[], fun _ => false⟩
      (fun _ => ⟨true, "6".toList⟩)).2.2.2 (by decide),
   (renderArglist_spec decimalNumbers ⟨[], fun _ => false⟩
      (fun _ => ⟨true, "6".toList⟩)).2.2.1 rfl⟩

theorem processMergedOutputs_keeps_viewer (p : Page) (outs : List MergedOutput) (t : Nat) :
    (processMergedOutputs p outs t).stlFile = p.stlFile ∧
    (processMergedOutputs p outs t).viewerModel = p.viewerModel ∧
    (processMergedOutputs p outs t).downloadLinks = p.downloadLinks := by
  unfold processMergedOutputs
  split <;> exact ⟨rfl, rfl, rfl⟩

/-- C4: when the compiler result carries no error and its list of outputs is empty, the
completion of the render job ends with the status text `<failed>` and the tooltip
`No output from runner!`, and leaves `stlFile`, the model of the viewer and the download
link as they were. -/
theorem renderCompletion_no_output (p : Page) (result : RunResult) (timestamp : Nat)
    (herror : result.error = none) (houtputs : result.outputs = []) :
    (renderCompletion p (.ok result) timestamp).metaInnerText = "<failed>".toList ∧
    (renderCompletion p (.ok result) timestamp).metaTitle
      = "No output from runner!".toList ∧
    (renderCompletion p (.ok result) timestamp).stlFile = p.stlFile ∧
    (renderCompletion p (.ok result) timestamp).viewerModel = p.viewerModel ∧
    (renderCompletion p (.ok result) timestamp).downloadLinks = p.downloadLinks := by
  have hk := processMergedOutputs_keeps_viewer p result.mergedOutputs timestamp
  simp only [renderCompletion, renderCompletionTry, herror, houtputs]
  exact ⟨trivial, trivial, hk.1, hk.2.1, hk.2.2⟩

/-- C4 on a result with no error, no output and an elapsed time of 1234 ms, completing on
a blank page. -/
theorem renderCompletion_no_output_witness :
    (renderCompletion blankPage (.ok ⟨[], none, 1234, []⟩) 5).metaInnerText
      = "<failed>".toList ∧
    (renderCompletion blankPage (.ok ⟨[], none, 1234, []⟩) 5).downloadLinks = [] :=
  ⟨(renderCompletion_no_output blankPage ⟨[], none, 1234, []⟩ 5 rfl rfl).1,
   (renderCompletion_no_output blankPage ⟨[], none, 1234, []⟩ 5 rfl rfl).2.2.2.2⟩

/-! ## The delayable executor -/

theorem Executor.inv_init (W : Type) : (Executor.init W).Inv := by
  constructor <;> simp [Executor.init]

theorem doExecute_calls {W : Type} (s : Executor W) (w : W) :
    (doExecute s w).calls =
      s.calls ++ s.runningJobKillSignal.toList.map Action.kill ++
        [Action.createJob s.jobs.length w] := by
  unfold doExecute
  cases s.runningJobKillSignal <;> simp

theorem doExecute_fields {W : Type} (s : Executor W) (w : W) :
    (doExecute s w).pendingId = s.pendingId ∧
    (doExecute s w).nextTimerId = s.nextTimerId ∧
    (doExecute s w).activeTimers = s.activeTimers ∧
    (doExecute s w).jobs = s.jobs ++ [w] ∧
    (doExecute s w).awaited = s.awaited ++ [s.jobs.length] ∧
    (doExecute s w).runningJobKillSignal = some s.jobs.length := by
  unfold doExecute
  cases s.runningJobKillSignal <;> simp

theorem doExecute_inv {W : Type} (s : Executor W) (w : W) (h : s.Inv) :
    (doExecute s w).Inv := by
  obtain ⟨hp, hn, ha, hj, haw, hsig⟩ := doExecute_fields s w
  have hc := doExecute_calls s w
  constructor
  · rw [hp, hn]; exact h.pending_lt
  · rw [ha, hp]; exact h.active_pending
  · rw [ha]; exact h.active_nodup
  · intro j hjs
    rw [hsig] at hjs
    cases hjs
    simp [hj]
  · intro j hjs
    rw [hsig] at hjs
    cases hjs
    simp [haw]
  · intro j hjs
    rw [hsig] at hjs
    cases hjs
    rw [hc]
    intro hmem
    simp only [List.mem_append, List.mem_map, List.mem_singleton] at hmem
    rcases hmem with (hmem | ⟨k, hk, hkk⟩) | hmem
    · exact absurd (h.killed_lt _ hmem) (by omega)
    · cases hkk
      have hk1 : s.runningJobKillSignal = some s.jobs.length := by
        simpa [Option.mem_toList] using hk
      have := h.signal_last _ hk1
      omega
    · cases hmem
  · intro j hjm
    rw [haw] at hjm
    rw [hj]
    simp only [List.mem_append, List.mem_singleton, List.length_append,
      List.length_singleton] at hjm ⊢
    rcases hjm with hjm | hjm
    · have := h.awaited_lt j hjm; omega
    · omega
  · intro j hjm
    rw [hc] at hjm
    rw [hj]
    simp only [List.mem_append, List.mem_map, List.mem_singleton, List.length_append,
      List.length_singleton] at hjm ⊢
    rcases hjm with (hjm | ⟨k, hk, hkk⟩) | hjm
    · have := h.killed_lt j hjm; omega
    · cases hkk
      have hk1 : s.runningJobKillSignal = some j := by
        simpa [Option.mem_toList] using hk
      have := h.signal_last _ hk1
      omega
    · cases hjm

/-- The state of `trigger` after its first statement (lines 218-221). -/
theorem clearPending_inv {W : Type} (s : Executor W) (h : s.Inv) (id : Nat)
    (hid : s.pendingId = some id) :
    ({ s with
        calls := s.calls ++ [Action.clearTimeout id],
        activeTimers := s.activeTimers.erase id,
        pendingId := none } : Executor W).Inv := by
  constructor
  · intro i hi; cases hi
  · intro i hi
    exfalso
    have hmem : i ∈ s.activeTimers := List.mem_of_mem_erase hi
    have h1 := h.active_pending i hmem
    rw [hid] at h1
    cases h1
    exact (List.Nodup.not_mem_erase h.active_nodup) hi
  · exact h.active_nodup.erase _
  · exact h.signal_last
  · exact h.signal_awaited
  · intro j hj hmem
    simp only [List.mem_append, List.mem_singleton] at hmem
    rcases hmem with hmem | hmem
    · exact h.signal_not_killed j hj hmem
    · cases hmem
  · exact h.awaited_lt
  · intro j hmem
    simp only [List.mem_append, List.mem_singleton] at hmem
    rcases hmem with hmem | hmem
    · exact h.killed_lt j hmem
    · cases hmem

theorem trigger_inv {W : Type} (s : Executor W) (now : Bool) (w : W) (h : s.Inv) :
    (trigger s now w).Inv := by
  have key : ∀ s1 : Executor W, s1.Inv → s1.pendingId = none → s1.nextTimerId = s.nextTimerId →
      (if now then doExecute s1 w
        else
          { s1 with
            calls := s1.calls ++ [Action.setTimeout s1.nextTimerId],
            activeTimers := s1.activeTimers ++ [s1.nextTimerId],
            nextTimerId := s1.nextTimerId + 1,
            pendingId := some s1.nextTimerId }).Inv := by
    intro s1 h1 hp _
    split
    · exact doExecute_inv s1 w h1
    · have hact : s1.activeTimers = [] := by
        cases hl : s1.activeTimers with
        | nil => rfl
        | cons i l =>
          have := h1.active_pending i (by simp [hl])
          rw [hp] at this
          cases this
      constructor
      · intro i hi
        simp only [Option.some.injEq] at hi
        simp only
        omega
      · intro i hi
        simp only [hact, List.nil_append, List.mem_singleton] at hi
        simp [hi]
      · simp [hact]
      · exact h1.signal_last
      · exact h1.signal_awaited
      · intro j hj hmem
        simp only [List.mem_append, List.mem_singleton] at hmem
        rcases hmem with hmem | hmem
        · exact h1.signal_not_killed j hj hmem
        · cases hmem
      · exact h1.awaited_lt
      · intro j hmem
        simp only [List.mem_append, List.mem_singleton] at hmem
        rcases hmem with hmem | hmem
        · exact h1.killed_lt j hmem
        · cases hmem
  unfold trigger
  cases hp : s.pendingId with
  | none => exact key s h hp rfl
  | some id => exact key _ (clearPending_inv s h id hp) rfl rfl

theorem doExecuteResume_inv {W : Type} (s : Executor W) (j : Nat) (h : s.Inv) :
    (doExecuteResume s j).Inv := by
  constructor
  · exact h.pending_lt
  · exact h.active_pending
  · exact h.active_nodup
  · intro k hk; cases hk
  · intro k hk; cases hk
  · intro k hk; cases hk
  · intro k hk
    exact h.awaited_lt k (List.mem_of_mem_erase hk)
  · exact h.killed_lt

theorem timerFired_inv {W : Type} (s : Executor W) (id : Nat) (h : s.Inv) :
    ({ s with activeTimers := s.activeTimers.erase id } : Executor W).Inv := by
  constructor
  · exact h.pending_lt
  · intro i hi
    exact h.active_pending i (List.mem_of_mem_erase hi)
  · exact h.active_nodup.erase _
  · exact h.signal_last
  · exact h.signal_awaited
  · exact h.signal_not_killed
  · exact h.awaited_lt
  · exact h.killed_lt

theorem step_inv {W : Type} (s s1 : Executor W) (e : Event W) (h : s.Inv)
    (hs : step s e = some s1) : s1.Inv := by
  cases e with
  | trigger now w =>
    simp only [step, Option.some.injEq] at hs
    rw [← hs]
    exact trigger_inv s now w h
  | timerFires id w =>
    simp only [step] at hs
    split at hs
    · simp only [Option.some.injEq] at hs
      rw [← hs]
      exact doExecute_inv _ w (timerFired_inv s id h)
    · cases hs
  | completionSettles j =>
    simp only [step] at hs
    split at hs
    · simp only [Option.some.injEq] at hs
      rw [← hs]
      exact doExecuteResume_inv s j h
    · cases hs

theorem run_inv {W : Type} (es : List (Event W)) : ∀ s s1 : Executor W, s.Inv →
    run s es = some s1 → s1.Inv := by
  induction es with
  | nil =>
    intro s s1 h hs
    simp only [run, Option.some.injEq] at hs
    rw [← hs]; exact h
  | cons e es ih =>
    intro s s1 h hs
    simp only [run] at hs
    cases he : step s e with
    | none => rw [he] at hs; cases hs
    | some s2 =>
      rw [he] at hs
      exact ih s2 s1 (step_inv s s2 e h he) hs

theorem reachable_inv {W : Type} (s : Executor W) (h : Reachable s) : s.Inv := by
  obtain ⟨es, hes⟩ := h
  exact run_inv es _ s (Executor.inv_init W) hes

theorem run_append {W : Type} (es fs : List (Event W)) : ∀ s : Executor W,
    run s (es ++ fs) = (run s es).bind (fun s1 => run s1 fs) := by
  induction es with
  | nil => intro s; simp [run]
  | cons e es ih =>
    intro s
    simp only [List.cons_append, run]
    cases step s e with
    | none => rfl
    | some s1 => simpa using ih s1

/-- A timer that is neither scheduled nor still to be handed out stays unscheduled. -/
theorem step_timer_gone {W : Type} (s s1 : Executor W) (e : Event W) (id : Nat)
    (hlt : id < s.nextTimerId) (hno : id ∉ s.activeTimers) (hs : step s e = some s1) :
    id < s1.nextTimerId ∧ id ∉ s1.activeTimers := by
  cases e with
  | trigger now w =>
    simp only [step, Option.some.injEq] at hs
    subst hs
    unfold trigger
    cases hp : s.pendingId with
    | none =>
      cases now
      · simp only [Bool.false_eq_true, if_false]
        refine ⟨by omega, ?_⟩
        simp only [List.mem_append, List.mem_singleton, not_or]
        exact ⟨hno, by omega⟩
      · simp only [if_true]
        obtain ⟨-, hn, ha, -⟩ := doExecute_fields s w
        rw [hn, ha]
        exact ⟨hlt, hno⟩
    | some p =>
      have hno1 : id ∉ s.activeTimers.erase p := fun h => hno (List.mem_of_mem_erase h)
      cases now
      · simp only [Bool.false_eq_true, if_false]
        refine ⟨by omega, ?_⟩
        simp only [List.mem_append, List.mem_singleton, not_or]
        exact ⟨hno1, by omega⟩
      · simp only [if_true]
        obtain ⟨-, hn, ha, -⟩ := doExecute_fields
          ({ s with
            calls := s.calls ++ [Action.clearTimeout p],
            activeTimers := s.activeTimers.erase p,
            pendingId := none } : Executor W) w
        rw [hn, ha]
        exact ⟨hlt, hno1⟩
  | timerFires i w =>
    simp only [step] at hs
    split at hs
    · simp only [Option.some.injEq] at hs
      subst hs
      obtain ⟨-, hn, ha, -⟩ := doExecute_fields
        ({ s with activeTimers := s.activeTimers.erase i } : Executor W) w
      rw [hn, ha]
      exact ⟨hlt, fun h => hno (List.mem_of_mem_erase h)⟩
    · cases hs
  | completionSettles j =>
    simp only [step] at hs
    split at hs
    · simp only [Option.some.injEq] at hs
      subst hs
      exact ⟨hlt, hno⟩
    · cases hs

theorem run_timer_gone {W : Type} (es : List (Event W)) : ∀ (s s1 : Executor W) (id : Nat),
    id < s.nextTimerId → id ∉ s.activeTimers → run s es = some s1 →
    id < s1.nextTimerId ∧ id ∉ s1.activeTimers := by
  induction es with
  | nil =>
    intro s s1 id hlt hno hs
    simp only [run, Option.some.injEq] at hs
    subst hs
    exact ⟨hlt, hno⟩
  | cons e es ih =>
    intro s s1 id hlt hno hs
    simp only [run] at hs
    cases he : step s e with
    | none => rw [he] at hs; cases hs
    | some s2 =>
      rw [he] at hs
      obtain ⟨h1, h2⟩ := step_timer_gone s s2 e id hlt hno he
      exact ih s2 s1 id h1 h2 hs

theorem trigger_now_fields {W : Type} (s : Executor W) (w : W) :
    (trigger s true w).calls =
      s.calls ++ s.pendingId.toList.map Action.clearTimeout ++
        s.runningJobKillSignal.toList.map Action.kill ++
        [Action.createJob s.jobs.length w] ∧
    (trigger s true w).nextTimerId = s.nextTimerId ∧
    (trigger s true w).awaited = s.awaited ++ [s.jobs.length] ∧
    (∀ id, s.pendingId = some id →
      (trigger s true w).activeTimers = s.activeTimers.erase id) := by
  unfold trigger
  cases hp : s.pendingId with
  | none =>
    simp only [if_true]
    obtain ⟨-, hn, -, -, haw, -⟩ := doExecute_fields s w
    refine ⟨by simp [doExecute_calls], hn, haw, ?_⟩
    intro id hid; cases hid
  | some p =>
    simp only [if_true]
    obtain ⟨-, hn, ha, -, haw, -⟩ := doExecute_fields
      ({ s with
        calls := s.calls ++ [Action.clearTimeout p],
        activeTimers := s.activeTimers.erase p,
        pendingId := none } : Executor W) w
    refine ⟨by simp [doExecute_calls], hn, haw, ?_⟩
    intro id hid
    cases hid
    exact ha

theorem trigger_first_debounced {W : Type} (s0 : Executor W) (w : W)
    (htimer : s0.activeTimers = []) (hsignal : s0.runningJobKillSignal = none) :
    Executor.Debounced s0 (trigger s0 false w) 0 := by
  unfold trigger
  cases hp : s0.pendingId with
  | none =>
    simp only [Bool.false_eq_true, if_false]
    exact ⟨rfl, by simp [htimer], rfl, rfl, hsignal, rfl,
      ⟨[Action.setTimeout s0.nextTimerId], rfl, by simp⟩⟩
  | some id =>
    simp only [Bool.false_eq_true, if_false]
    exact ⟨rfl, by simp [htimer], rfl, rfl, hsignal, rfl,
      ⟨[Action.clearTimeout id, Action.setTimeout s0.nextTimerId], by simp, by simp⟩⟩

theorem trigger_later_debounced {W : Type} (s0 s : Executor W) (k : Nat) (w : W)
    (h : Executor.Debounced s0 s k) : Executor.Debounced s0 (trigger s false w) (k + 1) := by
  obtain ⟨hp, ha, hn, hj, hs, haw, new, hc, hnew⟩ := h
  unfold trigger
  simp only [hp, Bool.false_eq_true, if_false]
  refine ⟨by simp only [hn, Option.some.injEq]; omega, by simp [ha, hn]; omega,
    by simp only [hn]; omega, hj, hs, haw,
    ⟨new ++ [Action.clearTimeout (s0.nextTimerId + k), Action.setTimeout s.nextTimerId],
      by simp [hc], ?_⟩⟩
  intro a hmem j w1
  simp only [List.mem_append, List.mem_cons, List.mem_singleton, List.not_mem_nil,
    or_false] at hmem
  rcases hmem with hmem | hmem | hmem
  · exact hnew a hmem j w1
  · rw [hmem]; intro hh; cases hh
  · rw [hmem]; intro hh; cases hh

theorem run_triggers_debounced {W : Type} (s0 : Executor W) (ws : List W) :
    ∀ (s : Executor W) (k : Nat), Executor.Debounced s0 s k →
      ∃ s1 : Executor W, run s (ws.map (Event.trigger false)) = some s1 ∧
        Executor.Debounced s0 s1 (k + ws.length) := by
  induction ws with
  | nil => intro s k h; exact ⟨s, rfl, h⟩
  | cons w ws ih =>
    intro s k h
    obtain ⟨s1, hrun, hd⟩ := ih (trigger s false w) (k + 1)
      (trigger_later_debounced s0 s k w h)
    refine ⟨s1, by simpa [run, step] using hrun, ?_⟩
    have : k + (w :: ws).length = k + 1 + ws.length := by
      simp only [List.length_cons]; omega
    rw [this]; exact hd

/-- C5: from any reachable state of the executor in which no timer is scheduled and no
job is awaited, after `n ≥ 1` calls with `now = false` and no timer firing in between, no
job has been created and `createJob` has not been called; exactly the timer of the last
call is scheduled, no other timer can fire, and when that timer fires `createJob` is
called once, for a new job, with the world of the firing. -/
theorem debounce_creates_one_job {W : Type} (s0 : Executor W) (hs : Reachable s0)
    (htimer : s0.activeTimers = []) (hjob : s0.awaited = [])
    (ws : List W) (hn : 1 ≤ ws.length) (w : W) :
    ∃ s s1 : Executor W,
      run s0 (ws.map (Event.trigger false)) = some s ∧
      s.jobs = s0.jobs ∧
      (∃ new, s.calls = s0.calls ++ new ∧ ∀ a ∈ new, ∀ j w1, a ≠ Action.createJob j w1) ∧
      s.activeTimers = [s0.nextTimerId + ws.length - 1] ∧
      (∀ id w1, id ≠ s0.nextTimerId + ws.length - 1 →
        step s (.timerFires id w1) = none) ∧
      step s (.timerFires (s0.nextTimerId + ws.length - 1) w) = some s1 ∧
      s1.jobs = s0.jobs ++ [w] ∧
      s1.calls = s.calls ++ [Action.createJob s0.jobs.length w] ∧
      s1.activeTimers = [] := by
  have hinv := reachable_inv s0 hs
  have hsignal : s0.runningJobKillSignal = none := by
    cases hsig : s0.runningJobKillSignal with
    | none => rfl
    | some j =>
      have := hinv.signal_awaited j hsig
      rw [hjob] at this
      cases this
  cases ws with
  | nil => simp at hn
  | cons w0 ws =>
    obtain ⟨s, hrun, hd0⟩ := run_triggers_debounced s0 ws (trigger s0 false w0) 0
      (trigger_first_debounced s0 w0 htimer hsignal)
    have hd : Executor.Debounced s0 s ws.length := by
      rw [Nat.zero_add] at hd0; exact hd0
    have hlast : s0.nextTimerId + (w0 :: ws).length - 1 = s0.nextTimerId + ws.length := by
      simp only [List.length_cons]; omega
    rw [hlast]
    have hact := hd.active
    refine ⟨s, doExecute { s with
        activeTimers := s.activeTimers.erase (s0.nextTimerId + ws.length) } w,
      by simpa [run, step] using hrun, hd.jobs, hd.calls, hact, ?_, ?_, ?_, ?_, ?_⟩
    · intro id w1 hne
      simp [step, hact, hne]
    · simp [step, hact]
    · simp [(doExecute_fields _ w).2.2.2.1, hd.jobs]
    · simp [doExecute_calls, hd.signal, hd.jobs]
    · simp [(doExecute_fields _ w).2.2.1, hact]

/-- C5 on an executor that has already run one job to its end: three calls in the worlds
10, 20 and 30, then the timer of the last call firing in the world 40, create the second
job, once, with the world 40. -/
theorem debounce_creates_one_job_witness :
    ∃ s s1 : Executor Nat,
      run idleExecutor [.trigger false 10, .trigger false 20, .trigger false 30] = some s ∧
      step s (.timerFires 4 40) = some s1 ∧ s1.jobs = [2, 40] := by
  obtain ⟨s, s1, h1, -, -, -, -, h2, h3, -, -⟩ :=
    debounce_creates_one_job idleExecutor
      ⟨[.trigger false 1, .timerFires 1 2, .completionSettles 0], by decide⟩
      (by decide) (by decide) [10, 20, 30] (by decide) 40
  exact ⟨s, s1, h1, h2, h3⟩

/-- C6, as stated, fails: after three calls with `now = true`, the first job is created
and its completion has not settled (it is still awaited), yet the third call invokes the
kill action of the second job only. -/
theorem trigger_now_kills_one_job_only :
    (run (Executor.init Unit) [.trigger true (), .trigger true ()]).map
        (fun s => (s.awaited, s.calls))
      = some ([0, 1], [.createJob 0 (), .kill 0, .createJob 1 ()]) ∧
    (run (Executor.init Unit) [.trigger true (), .trigger true (), .trigger true ()]).map
        (fun s => s.calls)
      = some [.createJob 0 (), .kill 0, .createJob 1 (), .kill 1, .createJob 2 ()] := by
  decide

/-- C6, amended: in every reachable state a call with `now = true` clears the pending
timer if there is one, after which that timer can never fire; invokes the kill action
that `runningJobKillSignal` holds if it holds one, in which case the job is the most
recently created one, is still awaited and has not been killed before; and calls
`createJob` for the replacement job during that same call. -/
theorem trigger_now_spec {W : Type} (s : Executor W) (hs : Reachable s) (w : W) :
    step s (.trigger true w) = some (trigger s true w) ∧
    (trigger s true w).calls =
      s.calls ++ s.pendingId.toList.map Action.clearTimeout ++
        s.runningJobKillSignal.toList.map Action.kill ++
        [Action.createJob s.jobs.length w] ∧
    (∀ id, s.pendingId = some id → ∀ es s1 w1, run (trigger s true w) es = some s1 →
      step s1 (.timerFires id w1) = none) ∧
    (∀ j, s.runningJobKillSignal = some j →
      j + 1 = s.jobs.length ∧ j ∈ s.awaited ∧ Action.kill j ∉ s.calls) := by
  have hinv := reachable_inv s hs
  obtain ⟨hc, hn, -, ha⟩ := trigger_now_fields s w
  refine ⟨rfl, hc, ?_, ?_⟩
  · intro id hid es s1 w1 hrun
    have hlt : id < (trigger s true w).nextTimerId := by
      rw [hn]; exact hinv.pending_lt id hid
    have hno : id ∉ (trigger s true w).activeTimers := by
      rw [ha id hid]
      exact List.Nodup.not_mem_erase hinv.active_nodup
    have := (run_timer_gone es _ s1 id hlt hno hrun).2
    simp [step, this]
  · intro j hj
    exact ⟨hinv.signal_last j hj, hinv.signal_awaited j hj, hinv.signal_not_killed j hj⟩

/-- C6, amended, on an executor with a job running and a timer pending. -/
theorem trigger_now_spec_witness :
    (trigger busyExecutor true ()).calls =
      [.createJob 0 (), .setTimeout 1, .clearTimeout 1, .kill 0, .createJob 1 ()] ∧
    step (trigger busyExecutor true ()) (.timerFires 1 ()) = none :=
  ⟨(trigger_now_spec busyExecutor
      ⟨[.trigger true (), .trigger false ()], by decide⟩ ()).2.1.trans (by decide),
   (trigger_now_spec busyExecutor
      ⟨[.trigger true (), .trigger false ()], by decide⟩ ()).2.2.1 1 (by decide) [] _ ()
      rfl⟩

/-- C7, as stated, fails: the second of two calls with `now = true` invokes the kill
action of the first job and calls `createJob` for the second job at once, while the
completion of the first job is still awaited; that completion can settle afterwards. -/
theorem doExecute_does_not_wait :
    (run (Executor.init Unit) [.trigger true (), .trigger true ()]).map
        (fun s => (s.calls, s.awaited))
      = some ([.createJob 0 (), .kill 0, .createJob 1 ()], [0, 1]) ∧
    (run (Executor.init Unit)
        [.trigger true (), .trigger true (), .completionSettles 0]).map
        (fun s => (s.calls, s.awaited))
      = some ([.createJob 0 (), .kill 0, .createJob 1 ()], [1]) := by
  decide

/-- C7, amended: whenever `doExecute` starts, from a call with `now = true` or from a timer
that fires, in a reachable state in which `runningJobKillSignal` holds the kill action of
a job, it invokes that kill action and then at once calls `createJob` for the new job;
the killed job is the most recently created one and its completion is still awaited when
the new job has been created. -/
theorem doExecute_kills_then_creates {W : Type} (s : Executor W) (hs : Reachable s)
    (j : Nat) (hj : s.runningJobKillSignal = some j) (w : W) :
    j + 1 = s.jobs.length ∧
    (trigger s true w).calls =
      s.calls ++ s.pendingId.toList.map Action.clearTimeout ++
        [Action.kill j, Action.createJob s.jobs.length w] ∧
    j ∈ (trigger s true w).awaited ∧
    (∀ id ∈ s.activeTimers, ∃ s1, step s (.timerFires id w) = some s1 ∧
      s1.calls = s.calls ++ [Action.kill j, Action.createJob s.jobs.length w] ∧
      j ∈ s1.awaited) := by
  have hinv := reachable_inv s hs
  obtain ⟨hc, -, haw, -⟩ := trigger_now_fields s w
  refine ⟨hinv.signal_last j hj, ?_, ?_, ?_⟩
  · rw [hc, hj]; simp
  · rw [haw]
    exact List.mem_append_left _ (hinv.signal_awaited j hj)
  · intro id hid
    refine ⟨doExecute { s with activeTimers := s.activeTimers.erase id } w, ?_, ?_, ?_⟩
    · simp [step, hid]
    · simp [doExecute_calls, hj]
    · rw [(doExecute_fields _ w).2.2.2.2.1]
      exact List.mem_append_left _ (hinv.signal_awaited j hj)

/-- C7, amended, on an executor with a job running and a timer pending. -/
theorem doExecute_kills_then_creates_witness :
    (∃ s1, step busyExecutor (.timerFires 1 ()) = some s1 ∧
      s1.calls = busyExecutor.calls ++ [.kill 0, .createJob 1 ()] ∧ 0 ∈ s1.awaited) :=
  (doExecute_kills_then_creates busyExecutor
    ⟨[.trigger true (), .trigger false ()], by decide⟩ 0 (by decide) ()).2.2.2 1
    (by decide)

/-- The completion of a killed job that settles after its successor has been created
clears `runningJobKillSignal`, and a later call with `now = true` then creates the third
job without invoking the kill action of the second, which is still awaited. -/
theorem stale_completion_clears_signal :
    (run (Executor.init Unit)
        [.trigger true (), .trigger true (), .completionSettles 0]).map
        (fun s => (s.runningJobKillSignal, s.awaited))
      = some (none, [1]) ∧
    (run (Executor.init Unit)
        [.trigger true (), .trigger true (), .completionSettles 0, .trigger true ()]).map
        (fun s => (s.calls, s.awaited))
      = some ([.createJob 0 (), .kill 0, .createJob 1 (), .createJob 2 ()], [1, 2]) := by
  decide

/-! ## Change detection -/

theorem hexValue_hexDigit (n : Nat) (h : n < 16) : hexValue (hexDigit n) = n := by
  interval_cases n <;> decide

theorem unescape_escapeChar (c : Char) (r : Text) :
    unescape (escapeChar c ++ r) = some (c, r) := by
  unfold escapeChar
  split_ifs with h1 h2 h3 h4 h5 h6 h7 h8
  · subst h1; rfl
  · subst h2; rfl
  · subst h3; rfl
  · subst h4; rfl
  · subst h5; rfl
  · subst h6; rfl
  · subst h7; rfl
  · have ha : c.toNat / 16 < 16 := by omega
    have hb : c.toNat % 16 < 16 := Nat.mod_lt _ (by decide)
    have hu : ∀ a b : Char, unescape (['\\', 'u', '0', '0', a, b] ++ r) =
        some (Char.ofNat (16 * hexValue a + hexValue b), r) := fun _ _ => rfl
    rw [hu, hexValue_hexDigit _ ha, hexValue_hexDigit _ hb, Nat.div_add_mod]
    simp
  · show (if c = '\\' then unescapeAfterBackslash r else some (c, r)) = some (c, r)
    rw [if_neg h7]

theorem escapeChar_head (c : Char) (r : Text) : ∃ x t, escapeChar c ++ r = x :: t ∧ x ≠ '"' := by
  unfold escapeChar
  split_ifs with h1 h2 h3 h4 h5 h6 h7 h8
  all_goals first
    | exact ⟨'\\', _, rfl, by decide⟩
    | exact ⟨c, r, rfl, h6⟩

theorem quoteBody_inj : ∀ (s1 s2 r1 r2 : Text),
    s1.flatMap escapeChar ++ '"' :: r1 = s2.flatMap escapeChar ++ '"' :: r2 →
    s1 = s2 ∧ r1 = r2 := by
  intro s1
  induction s1 with
  | nil =>
    intro s2 r1 r2 h
    cases s2 with
    | nil => simpa using h
    | cons c s2 =>
      exfalso
      obtain ⟨x, t, hx, hne⟩ := escapeChar_head c (s2.flatMap escapeChar ++ '"' :: r2)
      simp only [List.flatMap_nil, List.nil_append, List.flatMap_cons, List.append_assoc] at h
      rw [hx] at h
      cases h
      exact hne rfl
  | cons c s1 ih =>
    intro s2 r1 r2 h
    cases s2 with
    | nil =>
      exfalso
      obtain ⟨x, t, hx, hne⟩ := escapeChar_head c (s1.flatMap escapeChar ++ '"' :: r1)
      simp only [List.flatMap_nil, List.nil_append, List.flatMap_cons, List.append_assoc] at h
      rw [hx] at h
      cases h
      exact hne rfl
    | cons d s2 =>
      simp only [List.flatMap_cons, List.append_assoc] at h
      have h1 := unescape_escapeChar c (s1.flatMap escapeChar ++ '"' :: r1)
      rw [h, unescape_escapeChar] at h1
      simp only [Option.some.injEq, Prod.mk.injEq] at h1
      obtain ⟨hcd, hrest⟩ := h1
      obtain ⟨hs, hr⟩ := ih s2 r1 r2 hrest.symm
      exact ⟨by rw [hcd, hs], hr⟩

theorem quoteJSONString_inj (s1 s2 r1 r2 : Text)
    (h : quoteJSONString s1 ++ r1 = quoteJSONString s2 ++ r2) : s1 = s2 ∧ r1 = r2 := by
  simp only [quoteJSONString, List.cons_append, List.append_assoc, List.cons.injEq, true_and,
    List.nil_append] at h
  exact quoteBody_inj s1 s2 r1 r2 h

theorem quoteJSONString_head (s r : Text) :
    ∃ t, quoteJSONString s ++ r = '"' :: t := ⟨_, rfl⟩

theorem stringifyElements_cons (x : Text) (l : List Text) :
    stringifyElements (x :: l) =
      quoteJSONString x ++ (match l with
        | [] => []
        | _ :: _ => ',' :: stringifyElements l) := by
  cases l with
  | nil => simp [stringifyElements]
  | cons y l => simp [stringifyElements]

theorem stringifyElements_inj : ∀ (l1 l2 : List Text) (r1 r2 : Text),
    stringifyElements l1 ++ ']' :: r1 = stringifyElements l2 ++ ']' :: r2 →
    l1 = l2 ∧ r1 = r2 := by
  intro l1
  induction l1 with
  | nil =>
    intro l2 r1 r2 h
    cases l2 with
    | nil => simpa [stringifyElements] using h
    | cons y l2 =>
      exfalso
      rw [stringifyElements_cons] at h
      simp [stringifyElements, quoteJSONString] at h
  | cons x l1 ih =>
    intro l2 r1 r2 h
    cases l2 with
    | nil =>
      exfalso
      rw [stringifyElements_cons] at h
      simp [stringifyElements, quoteJSONString] at h
    | cons y l2 =>
      rw [stringifyElements_cons, stringifyElements_cons, List.append_assoc,
        List.append_assoc] at h
      obtain ⟨hxy, hrest⟩ := quoteJSONString_inj _ _ _ _ h
      subst hxy
      cases l1 with
      | nil =>
        cases l2 with
        | nil => simpa using hrest
        | cons z l2 => simp at hrest
      | cons z l1 =>
        cases l2 with
        | nil => simp at hrest
        | cons z2 l2 =>
          simp only [List.cons_append, List.cons.injEq, true_and] at hrest
          obtain ⟨hl, hr⟩ := ih (z2 :: l2) r1 r2 hrest
          exact ⟨by rw [hl], hr⟩

theorem stringifyBool_inj (b1 b2 : Bool) (r1 r2 : Text)
    (h : stringifyBool b1 ++ r1 = stringifyBool b2 ++ r2) : b1 = b2 ∧ r1 = r2 := by
  cases b1 <;> cases b2 <;> simp [stringifyBool] at h <;> simp [h]

theorem stringifySource_inj (a b : SourceDescriptor) (r1 r2 : Text)
    (h : stringifySource a ++ r1 = stringifySource b ++ r2) : a = b ∧ r1 = r2 := by
  obtain ⟨na, ca⟩ := a
  obtain ⟨nb, cb⟩ := b
  cases na with
  | none =>
    cases nb with
    | none =>
      simp only [stringifySource, String.toList, List.cons_append, List.nil_append,
        List.append_assoc, List.cons.injEq, true_and, List.append_nil] at h
      obtain ⟨hc, hr⟩ := quoteJSONString_inj _ _ _ _ h
      simp only [List.cons.injEq, true_and] at hr
      exact ⟨by rw [hc], hr⟩
    | some n2 =>
      simp [stringifySource] at h
  | some n1 =>
    cases nb with
    | none =>
      simp [stringifySource] at h
    | some n2 =>
      simp only [stringifySource, String.toList, List.cons_append, List.nil_append,
        List.append_assoc, List.cons.injEq, true_and, List.append_nil] at h
      obtain ⟨hn, hr⟩ := quoteJSONString_inj _ _ _ _ h
      simp only [List.cons.injEq, true_and] at hr
      obtain ⟨hc, hr2⟩ := quoteJSONString_inj _ _ _ _ hr
      simp only [List.cons.injEq, true_and] at hr2
      exact ⟨by rw [hn, hc], hr2⟩

theorem stringifyState_inj (a b : State) (ha : a.camera = none) (hb : b.camera = none)
    (h : stringifyState a = stringifyState b) : a = b := by
  obtain ⟨sa, ra, fa, va, cama⟩ := a
  obtain ⟨sb, rb, fb, vb, camb⟩ := b
  simp only at ha hb
  subst ha hb
  simp only [stringifyState, String.toList, List.cons_append, List.nil_append,
    List.append_assoc, List.cons.injEq, true_and, List.append_nil] at h
  obtain ⟨hs, h1⟩ := stringifySource_inj _ _ _ _ h
  simp only [List.cons.injEq, true_and] at h1
  obtain ⟨hr, h2⟩ := stringifyBool_inj _ _ _ _ h1
  simp only [List.cons.injEq, true_and] at h2
  obtain ⟨hf, h3⟩ := stringifyElements_inj _ _ _ _ h2
  simp only [List.cons.injEq, true_and] at h3
  obtain ⟨hv, -⟩ := stringifyBool_inj _ _ _ _ h3
  rw [hs, hr, hf, hv]

theorem getState_camera (ui : UI) :
    (normalizeStateForCompilation (getState ui)).camera = none := rfl

theorem stringify_ne_iff (prev : Option State) (st : State) (hst : st.camera = none)
    (hprev : ∀ p, prev = some p → p.camera = none) :
    stringify prev ≠ stringify (some st) ↔ prev ≠ some st := by
  cases prev with
  | none => simp [stringify]
  | some p =>
    simp only [stringify, Option.map_some', ne_eq, Option.some.injEq]
    constructor
    · intro h hp
      exact h (by rw [hp])
    · intro h hp
      exact h (stringifyState_inj p st (hprev p rfl) hst hp)

theorem onStateChanged_differ (prev : Option State) (ui : UI) (allowRun : Bool)
    (h : stringify prev ≠ stringify (some (normalizeStateForCompilation (getState ui)))) :
    onStateChanged prev ui allowRun =
      { previousNormalizedState := some (normalizeStateForCompilation (getState ui)),
        featuresDisplay := "none".toList,
        renderCalls := if allowRun then [false] else [] } := by
  unfold onStateChanged
  rw [if_pos h]

theorem onStateChanged_same (prev : Option State) (ui : UI) (allowRun : Bool)
    (h : ¬ stringify prev ≠ stringify (some (normalizeStateForCompilation (getState ui)))) :
    onStateChanged prev ui allowRun =
      { previousNormalizedState := prev,
        featuresDisplay := "none".toList,
        renderCalls := [] } := by
  unfold onStateChanged
  rw [if_neg h]

/-- C9: where `previousNormalizedState` is `undefined` or the normalized snapshot of an
earlier state of the interface, `onStateChanged` calls `render` with `now = false` if
and only if `allowRun` is true and the normalized snapshot of the current state differs
from `previousNormalizedState`, and makes no other call of `render`; it replaces
`previousNormalizedState` by the new normalized snapshot when the two differ and leaves
it as it is when they do not; a second call on the unchanged interface calls no `render`
and leaves `previousNormalizedState` unchanged. -/
theorem onStateChanged_spec (prev : Option State) (ui : UI) (allowRun allowRun2 : Bool)
    (hprev : prev = none ∨ ∃ ui0, prev = some (normalizeStateForCompilation (getState ui0))) :
    ((onStateChanged prev ui allowRun).renderCalls = [false] ↔
      allowRun = true ∧ prev ≠ some (normalizeStateForCompilation (getState ui))) ∧
    ((onStateChanged prev ui allowRun).renderCalls ≠ [false] →
      (onStateChanged prev ui allowRun).renderCalls = []) ∧
    (prev ≠ some (normalizeStateForCompilation (getState ui)) →
      (onStateChanged prev ui allowRun).previousNormalizedState
        = some (normalizeStateForCompilation (getState ui))) ∧
    (prev = some (normalizeStateForCompilation (getState ui)) →
      (onStateChanged prev ui allowRun).previousNormalizedState = prev) ∧
    (onStateChanged (onStateChanged prev ui allowRun).previousNormalizedState ui
        allowRun2).renderCalls = [] ∧
    (onStateChanged (onStateChanged prev ui allowRun).previousNormalizedState ui
        allowRun2).previousNormalizedState
      = (onStateChanged prev ui allowRun).previousNormalizedState := by
  have hcam : ∀ p, prev = some p → p.camera = none := by
    intro p hp
    rcases hprev with h | ⟨ui0, h⟩
    · rw [h] at hp; cases hp
    · rw [h] at hp; cases hp; rfl
  have hiff := stringify_ne_iff prev _ (getState_camera ui) hcam
  have hself : ¬ stringify (some (normalizeStateForCompilation (getState ui)))
      ≠ stringify (some (normalizeStateForCompilation (getState ui))) := fun h => h rfl
  by_cases hd : prev = some (normalizeStateForCompilation (getState ui))
  · have hno : ¬ stringify prev
        ≠ stringify (some (normalizeStateForCompilation (getState ui))) :=
      fun h => (hiff.1 h) hd
    rw [onStateChanged_same prev ui allowRun hno]
    simp only
    rw [hd, onStateChanged_same _ ui allowRun2 hself]
    simp
  · rw [onStateChanged_differ prev ui allowRun (hiff.2 hd)]
    simp only
    rw [onStateChanged_same _ ui allowRun2 hself]
    cases allowRun <;> simp [hd]

/-- C9 on an interface with two features, one checked, first seen with
`previousNormalizedState` undefined. -/
theorem onStateChanged_spec_witness :
    (onStateChanged none ⟨⟨["a".toList, "b".toList], fun f => f = "a".toList⟩,
        some "input.stl".toList, true, false, []⟩ true).renderCalls = [false] :=
  (onStateChanged_spec none ⟨⟨["a".toList, "b".toList], fun f => f = "a".toList⟩,
      some "input.stl".toList, true, false, []⟩ true true (Or.inl rfl)).1.2
    ⟨rfl, by simp⟩

/-! ## `normalizeSource` -/

theorem replaceAllFuel_enough (m : Text → Option (Text × Text)) (hm : Shrinks m) :
    ∀ (n : Nat) (s : Text) (f1 f2 : Nat), s.length ≤ n → s.length ≤ f1 → s.length ≤ f2 →
      replaceAllFuel m f1 s = replaceAllFuel m f2 s := by
  intro n
  induction n with
  | zero =>
    intro s f1 f2 hn _ _
    have : s = [] := List.length_eq_zero.1 (by omega)
    subst this
    cases f1 <;> cases f2 <;> rfl
  | succ n ih =>
    intro s f1 f2 hn h1 h2
    cases s with
    | nil => cases f1 <;> cases f2 <;> rfl
    | cons c cs =>
      simp only [List.length_cons] at hn h1 h2
      obtain ⟨g1, rfl⟩ : ∃ g, f1 = g + 1 := ⟨f1 - 1, by omega⟩
      obtain ⟨g2, rfl⟩ : ∃ g, f2 = g + 1 := ⟨f2 - 1, by omega⟩
      simp only [replaceAllFuel]
      cases hmc : m (c :: cs) with
      | none =>
        simp only
        rw [ih cs g1 g2 (by omega) (by omega) (by omega)]
      | some p =>
        obtain ⟨r, rest⟩ := p
        have hlt := hm _ _ _ hmc
        simp only [List.length_cons] at hlt
        simp only
        rw [ih rest g1 g2 (by omega) (by omega) (by omega)]

theorem replaceAll_nil (m : Text → Option (Text × Text)) : replaceAll m [] = [] := rfl

theorem replaceAll_cons (m : Text → Option (Text × Text)) (hm : Shrinks m) (c : Char)
    (cs : Text) :
    replaceAll m (c :: cs) =
      (match m (c :: cs) with
        | some (r, rest) => r ++ replaceAll m rest
        | none => c :: replaceAll m cs) := by
  simp only [replaceAll, List.length_cons, replaceAllFuel]
  cases hmc : m (c :: cs) with
  | none => rfl
  | some p =>
    obtain ⟨r, rest⟩ := p
    have hlt := hm _ _ _ hmc
    simp only [List.length_cons] at hlt
    simp only
    rw [replaceAllFuel_enough m hm cs.length rest cs.length rest.length (by omega) (by omega)
      (le_refl _)]

theorem replaceAll_match (m : Text → Option (Text × Text)) (hm : Shrinks m) (s r rest : Text)
    (h : m s = some (r, rest)) : replaceAll m s = r ++ replaceAll m rest := by
  cases s with
  | nil =>
    have := hm _ _ _ h
    simp at this
  | cons c cs => rw [replaceAll_cons m hm, h]

theorem replaceAll_skip (m : Text → Option (Text × Text)) (hm : Shrinks m) (c : Char)
    (cs : Text) (h : m (c :: cs) = none) : replaceAll m (c :: cs) = c :: replaceAll m cs := by
  rw [replaceAll_cons m hm, h]

theorem length_dropWhile_le (p : Char → Bool) (s : Text) :
    (s.dropWhile p).length ≤ s.length := by
  induction s with
  | nil => simp
  | cons c cs ih =>
    simp only [List.dropWhile_cons]
    split
    · simp only [List.length_cons]; omega
    · exact le_refl _

theorem blockEnd_cons (x : Char) (rest : Text) :
    blockEnd (x :: rest) =
      if x = '*' ∧ rest.head? = some '/' then some rest.tail
      else if isLineTerminator x then none else blockEnd rest := by
  conv_lhs => unfold blockEnd
  split
  · rename_i heq
    cases heq
  · rename_i r heq
    cases heq
    simp
  · rename_i c r hne heq
    cases heq
    have : ¬ (x = '*' ∧ rest.head? = some '/') := by
      rintro ⟨hx, hr⟩
      cases rest with
      | nil => cases hr
      | cons y ys =>
        simp only [List.head?_cons, Option.some.injEq] at hr
        exact hne ys hx (by rw [hr])
    rw [if_neg this]

theorem blockEnd_length : ∀ (s r : Text), blockEnd s = some r → r.length < s.length := by
  intro s
  induction s with
  | nil => intro r h; cases h
  | cons x rest ih =>
    intro r h
    rw [blockEnd_cons] at h
    split at h
    · cases h
      rename_i hx
      cases rest with
      | nil => cases hx.2
      | cons y ys =>
        simp only [List.tail_cons, List.length_cons]
        omega
    · split at h
      · cases h
      · have := ih r h
        simp only [List.length_cons]
        omega

theorem matchComment_shrinks : Shrinks matchComment := by
  intro s r rest h
  unfold matchComment at h
  split at h
  · rename_i t
    cases hb : blockEnd t with
    | none => rw [hb] at h; cases h
    | some r1 =>
      rw [hb] at h
      simp only [Option.map_some', Option.some.injEq, Prod.mk.injEq] at h
      have := blockEnd_length t r1 hb
      rw [← h.2]
      simp only [List.length_cons]
      omega
  · rename_i t
    simp only [Option.some.injEq, Prod.mk.injEq] at h
    rw [← h.2]
    have := length_dropWhile_le (fun c => !isLineTerminator c) t
    simp only [List.length_cons]
    omega
  · cases h

theorem matchPunctSpace_shrinks : Shrinks matchPunctSpace := by
  intro s r rest h
  unfold matchPunctSpace at h
  split at h
  · rename_i c w t
    split at h
    · simp only [Option.some.injEq, Prod.mk.injEq] at h
      rw [← h.2]
      have := length_dropWhile_le isSpace t
      simp only [List.length_cons]
      omega
    · cases h
  · cases h

theorem matchSpacePunct_shrinks : Shrinks matchSpacePunct := by
  intro s r rest h
  unfold matchSpacePunct at h
  split at h
  · rename_i w t
    split at h
    · split at h
      · rename_i c rest1 heq
        split at h
        · simp only [Option.some.injEq, Prod.mk.injEq] at h
          rw [← h.2]
          have := length_dropWhile_le isSpace t
          rw [heq] at this
          simp only [List.length_cons] at this ⊢
          omega
        · cases h
      · cases h
    · cases h
  · cases h

theorem matchSpace_shrinks : Shrinks matchSpace := by
  intro s r rest h
  unfold matchSpace at h
  split at h
  · rename_i w t
    split at h
    · simp only [Option.some.injEq, Prod.mk.injEq] at h
      rw [← h.2]
      have := length_dropWhile_le isSpace t
      simp only [List.length_cons]
      omega
    · cases h
  · cases h

theorem matchComment_cons (c : Char) (cs : Text) :
    matchComment (c :: cs) =
      if c = '/' then
        match cs with
        | [] => none
        | d :: ds =>
          if d = '*' then (blockEnd ds).map (fun r => ([], r))
          else if d = '/' then some ([], ds.dropWhile (fun c => !isLineTerminator c))
          else none
      else none := by
  unfold matchComment
  split
  · rename_i rest heq
    cases heq
    simp
  · rename_i rest heq
    cases heq
    simp
  · rename_i h1 h2
    split
    · rename_i hc
      subst hc
      cases cs with
      | nil => rfl
      | cons d ds =>
        simp only
        split
        · rename_i hd
          exact absurd (by rw [hd]) (h1 ds)
        · split
          · rename_i hd
            exact absurd (by rw [hd]) (h2 ds)
          · rfl
    · rfl

theorem scanEndFuel_succ (fuel : Nat) (c : Char) (cs : Text) :
    scanEndFuel (fuel + 1) (c :: cs) =
      if c = '/' then
        match cs with
        | [] => .slash
        | d :: ds =>
          if d = '*' then
            match blockEnd ds with
            | some r => scanEndFuel fuel r
            | none =>
              if ds.any isLineTerminator then scanEndFuel fuel ('*' :: ds) else .comment
          else if d = '/' then
            if ds.any isLineTerminator then
              scanEndFuel fuel (ds.dropWhile (fun c => !isLineTerminator c))
            else .comment
          else scanEndFuel fuel (d :: ds)
      else scanEndFuel fuel cs := by
  conv_lhs => unfold scanEndFuel
  split
  · rename_i heq; cases heq
  · rename_i heq; cases heq
  · rename_i f rest h1 h2
    cases h1; cases h2
    simp only [if_true]
  · rename_i f rest h1 h2
    cases h1; cases h2
    simp
  · rename_i f h1 h2
    cases h1; cases h2
    simp
  · rename_i f x rest hb hl hs h1 h2
    cases h1; cases h2
    split
    · rename_i hc
      subst hc
      cases cs with
      | nil => exact absurd rfl (hs rfl)
      | cons d ds =>
        simp only
        split
        · rename_i hd
          exact absurd (by rw [hd]) (hb ds rfl)
        · split
          · rename_i hd
            exact absurd (by rw [hd]) (hl ds rfl)
          · rfl
    · rfl

theorem blockEnd_append_some : ∀ (s r w : Text), blockEnd s = some r →
    blockEnd (s ++ w) = some (r ++ w) := by
  intro s
  induction s with
  | nil => intro r w h; cases h
  | cons x rest ih =>
    intro r w h
    rw [blockEnd_cons] at h
    rw [List.cons_append, blockEnd_cons]
    split at h
    · rename_i hx
      cases h
      cases rest with
      | nil => cases hx.2
      | cons y ys =>
        rw [if_pos ⟨hx.1, by simpa using hx.2⟩]
        rfl
    · rename_i hx
      have hx2 : ¬ (x = '*' ∧ (rest ++ w).head? = some '/') := by
        rintro ⟨h1, h2⟩
        cases rest with
        | nil => rw [blockEnd] at h; simp [h1] at h
        | cons y ys => exact hx ⟨h1, by simpa using h2⟩
      rw [if_neg hx2]
      split at h
      · cases h
      · rename_i hl
        rw [if_neg hl]
        exact ih r w h

theorem blockEnd_append_none : ∀ (s w : Text), blockEnd s = none →
    s.any isLineTerminator = true → blockEnd (s ++ w) = none := by
  intro s
  induction s with
  | nil => intro w _ h; simp at h
  | cons x rest ih =>
    intro w h hany
    rw [blockEnd_cons] at h
    rw [List.cons_append, blockEnd_cons]
    split at h
    · cases h
    · rename_i hx
      split at h
      · rename_i hl
        have hx2 : ¬ (x = '*' ∧ (rest ++ w).head? = some '/') := by
          rintro ⟨h1, _⟩
          rw [h1] at hl
          exact absurd hl (by decide)
        rw [if_neg hx2, if_pos hl]
      · rename_i hl
        have hrest : rest.any isLineTerminator = true := by
          simpa [hl] using hany
        have hx2 : ¬ (x = '*' ∧ (rest ++ w).head? = some '/') := by
          rintro ⟨h1, h2⟩
          cases rest with
          | nil => simp at hrest
          | cons y ys => exact hx ⟨h1, by simpa using h2⟩
        rw [if_neg hx2, if_neg hl]
        exact ih w h hrest

theorem dropWhile_append_of_any (p : Char → Bool) : ∀ (s w : Text),
    s.any (fun c => !p c) = true → (s ++ w).dropWhile p = s.dropWhile p ++ w := by
  intro s
  induction s with
  | nil => intro w h; simp at h
  | cons x rest ih =>
    intro w h
    simp only [List.cons_append, List.dropWhile_cons]
    by_cases hp : p x = true
    · simp only [hp, if_true]
      exact ih w (by simpa [hp] using h)
    · simp [hp]

theorem stripComments_slash (w : Text) (hw : ∀ x, w.head? = some x → x ≠ '/' ∧ x ≠ '*') :
    replaceAll matchComment ('/' :: w) = '/' :: replaceAll matchComment w := by
  apply replaceAll_skip _ matchComment_shrinks
  rw [matchComment_cons]
  cases w with
  | nil => rfl
  | cons d ds =>
    have := hw d rfl
    simp [this.1, this.2]

theorem stripComments_append_aux (fuel : Nat) : ∀ u : Text, u.length ≤ fuel →
    (scanEndFuel fuel u = .code → ∀ w,
      replaceAll matchComment (u ++ w) =
        replaceAll matchComment u ++ replaceAll matchComment w) ∧
    (scanEndFuel fuel u = .slash → ∀ w, (∀ x, w.head? = some x → x ≠ '/' ∧ x ≠ '*') →
      replaceAll matchComment (u ++ w) =
        replaceAll matchComment u ++ replaceAll matchComment w) := by
  induction fuel with
  | zero =>
    intro u hu
    have : u = [] := List.length_eq_zero.1 (by omega)
    subst this
    exact ⟨fun _ w => by simp [replaceAll_nil], fun h => by simp [scanEndFuel] at h⟩
  | succ fuel ih =>
    intro u hu
    cases u with
    | nil => exact ⟨fun _ w => by simp [replaceAll_nil], fun h => by simp [scanEndFuel] at h⟩
    | cons c cs =>
      simp only [List.length_cons] at hu
      rw [scanEndFuel_succ]
      by_cases hc : c = '/'
      · subst hc
        rw [if_pos rfl]
        cases cs with
        | nil =>
          refine ⟨fun h => (by cases h), fun _ w hw => ?_⟩
          rw [List.singleton_append, stripComments_slash w hw,
            stripComments_slash [] (by simp), replaceAll_nil]
          rfl
        | cons d ds =>
          simp only [List.length_cons] at hu
          dsimp only
          by_cases hd : d = '*'
          · subst hd
            rw [if_pos rfl]
            cases hb : blockEnd ds with
            | some r =>
              dsimp only
              have hlen := blockEnd_length ds r hb
              have hm1 : matchComment ('/' :: '*' :: ds) = some ([], r) := by
                rw [matchComment_cons]; simp [hb]
              have hm2 : ∀ w, matchComment ('/' :: '*' :: (ds ++ w)) = some ([], r ++ w) := by
                intro w
                rw [matchComment_cons]; simp [blockEnd_append_some ds r w hb]
              have hr := ih r (by omega)
              constructor
              · intro h w
                rw [List.cons_append, List.cons_append,
                  replaceAll_match _ matchComment_shrinks _ _ _ (hm2 w),
                  replaceAll_match _ matchComment_shrinks _ _ _ hm1]
                simpa using hr.1 h w
              · intro h w hw
                rw [List.cons_append, List.cons_append,
                  replaceAll_match _ matchComment_shrinks _ _ _ (hm2 w),
                  replaceAll_match _ matchComment_shrinks _ _ _ hm1]
                simpa using hr.2 h w hw
            | none =>
              dsimp only
              by_cases hany : ds.any isLineTerminator = true
              · rw [if_pos hany]
                have hm1 : matchComment ('/' :: '*' :: ds) = none := by
                  rw [matchComment_cons]; simp [hb]
                have hm2 : ∀ w, matchComment ('/' :: '*' :: (ds ++ w)) = none := by
                  intro w
                  rw [matchComment_cons]; simp [blockEnd_append_none ds w hb hany]
                have hr := ih ('*' :: ds) (by simp only [List.length_cons]; omega)
                constructor
                · intro h w
                  rw [List.cons_append, List.cons_append,
                    replaceAll_skip _ matchComment_shrinks _ _ (hm2 w),
                    replaceAll_skip _ matchComment_shrinks _ _ hm1]
                  have := hr.1 h w
                  simp only [List.cons_append] at this
                  rw [this]; rfl
                · intro h w hw
                  rw [List.cons_append, List.cons_append,
                    replaceAll_skip _ matchComment_shrinks _ _ (hm2 w),
                    replaceAll_skip _ matchComment_shrinks _ _ hm1]
                  have := hr.2 h w hw
                  simp only [List.cons_append] at this
                  rw [this]; rfl
              · rw [if_neg hany]
                exact ⟨fun h => (by cases h), fun h => (by cases h)⟩
          · rw [if_neg hd]
            by_cases hd2 : d = '/'
            · subst hd2
              rw [if_pos rfl]
              by_cases hany : ds.any isLineTerminator = true
              · rw [if_pos hany]
                have hm1 : matchComment ('/' :: '/' :: ds) =
                    some ([], ds.dropWhile (fun c => !isLineTerminator c)) := by
                  rw [matchComment_cons]; simp
                have hm2 : ∀ w, matchComment ('/' :: '/' :: (ds ++ w)) =
                    some ([], ds.dropWhile (fun c => !isLineTerminator c) ++ w) := by
                  intro w
                  rw [matchComment_cons]
                  simp only [if_true]
                  rw [dropWhile_append_of_any _ ds w (by simpa using hany)]
                  simp
                have hr := ih (ds.dropWhile (fun c => !isLineTerminator c)) (by
                  have := length_dropWhile_le (fun c => !isLineTerminator c) ds
                  omega)
                constructor
                · intro h w
                  rw [List.cons_append, List.cons_append,
                    replaceAll_match _ matchComment_shrinks _ _ _ (hm2 w),
                    replaceAll_match _ matchComment_shrinks _ _ _ hm1]
                  simpa using hr.1 h w
                · intro h w hw
                  rw [List.cons_append, List.cons_append,
                    replaceAll_match _ matchComment_shrinks _ _ _ (hm2 w),
                    replaceAll_match _ matchComment_shrinks _ _ _ hm1]
                  simpa using hr.2 h w hw
              · rw [if_neg hany]
                exact ⟨fun h => (by cases h), fun h => (by cases h)⟩
            · rw [if_neg hd2]
              have hm1 : matchComment ('/' :: d :: ds) = none := by
                rw [matchComment_cons]; simp [hd, hd2]
              have hm2 : ∀ w, matchComment ('/' :: d :: (ds ++ w)) = none := by
                intro w
                rw [matchComment_cons]; simp [hd, hd2]
              have hr := ih (d :: ds) (by simp only [List.length_cons]; omega)
              constructor
              · intro h w
                rw [List.cons_append, List.cons_append,
                  replaceAll_skip _ matchComment_shrinks _ _ (hm2 w),
                  replaceAll_skip _ matchComment_shrinks _ _ hm1]
                have := hr.1 h w
                simp only [List.cons_append] at this
                rw [this]; rfl
              · intro h w hw
                rw [List.cons_append, List.cons_append,
                  replaceAll_skip _ matchComment_shrinks _ _ (hm2 w),
                  replaceAll_skip _ matchComment_shrinks _ _ hm1]
                have := hr.2 h w hw
                simp only [List.cons_append] at this
                rw [this]; rfl
      · rw [if_neg hc]
        have hm1 : ∀ t, matchComment (c :: t) = none := by
          intro t
          rw [matchComment_cons]; simp [hc]
        have hr := ih cs (by omega)
        constructor
        · intro h w
          rw [List.cons_append, replaceAll_skip _ matchComment_shrinks _ _ (hm1 _),
            replaceAll_skip _ matchComment_shrinks _ _ (hm1 _), hr.1 h w]
          rfl
        · intro h w hw
          rw [List.cons_append, replaceAll_skip _ matchComment_shrinks _ _ (hm1 _),
            replaceAll_skip _ matchComment_shrinks _ _ (hm1 _), hr.2 h w hw]
          rfl

/-- Behind a text that ends in code, the scan for comments starts afresh. -/
theorem stripComments_append_code (u w : Text) (h : scanEnd u = .code) :
    replaceAll matchComment (u ++ w) =
      replaceAll matchComment u ++ replaceAll matchComment w :=
  (stripComments_append_aux u.length u (le_refl _)).1 h w

/-- Behind a text that does not end inside a comment, the scan for comments starts afresh
on a text that begins with neither a slash nor a star. -/
theorem stripComments_append_open (u w : Text) (h : scanEnd u ≠ .comment)
    (hw : ∀ x, w.head? = some x → x ≠ '/' ∧ x ≠ '*') :
    replaceAll matchComment (u ++ w) =
      replaceAll matchComment u ++ replaceAll matchComment w := by
  cases hs : scanEnd u with
  | code => exact (stripComments_append_aux u.length u (le_refl _)).1 hs w
  | slash => exact (stripComments_append_aux u.length u (le_refl _)).2 hs w hw
  | comment => exact absurd hs h

theorem isSpace_not_punct (c : Char) (h : isSpace c = true) : isPunct c = false := by
  by_contra hp
  have hp' : isPunct c = true := by simpa using hp
  simp only [isPunct, Bool.or_eq_true, decide_eq_true_eq] at hp'
  rcases hp' with ((h1 | h1) | h1) | h1 <;> · subst h1; exact absurd h (by decide)

theorem isSpace_not_slash (c : Char) (h : isSpace c = true) : c ≠ '/' ∧ c ≠ '*' := by
  constructor <;> · intro hc; subst hc; exact absurd h (by decide)

theorem dropWhile_head (p : Char → Bool) : ∀ (s : Text) (x : Char) (t : Text),
    s.dropWhile p = x :: t → p x = false := by
  intro s
  induction s with
  | nil => intro x t h; cases h
  | cons c cs ih =>
    intro x t h
    simp only [List.dropWhile_cons] at h
    split at h
    · exact ih x t h
    · rename_i hc
      cases h
      simpa using hc

theorem dropWhile_of_head (p : Char → Bool) (c : Char) (cs : Text) (h : p c = false) :
    (c :: cs).dropWhile p = c :: cs := by
  simp [List.dropWhile_cons, h]

theorem dropWhile_all (p : Char → Bool) : ∀ (w s : Text), (∀ x ∈ w, p x = true) →
    (w ++ s).dropWhile p = s.dropWhile p := by
  intro w
  induction w with
  | nil => intro s _; rfl
  | cons x w ih =>
    intro s h
    simp only [List.cons_append, List.dropWhile_cons, h x (by simp), if_true]
    exact ih s (fun y hy => h y (by simp [hy]))

/-- The replacement of `([,.({])\s+`: a character is copied, and the whitespace behind a
character of the class is dropped. -/
theorem punctSpace_cons (c : Char) (cs : Text) :
    replaceAll matchPunctSpace (c :: cs) =
      c :: replaceAll matchPunctSpace (if isPunct c then cs.dropWhile isSpace else cs) := by
  rw [replaceAll_cons _ matchPunctSpace_shrinks]
  cases cs with
  | nil =>
    simp only [matchPunctSpace, List.dropWhile_nil, ite_self]
  | cons w rest =>
    simp only [matchPunctSpace]
    by_cases hp : isPunct c = true
    · by_cases hw : isSpace w = true
      · simp [hp, hw, List.dropWhile_cons]
      · simp [hp, hw, List.dropWhile_cons]
    · simp [hp]

/-- The replacement of `\s+` by one space. -/
theorem space_cons (c : Char) (cs : Text) :
    replaceAll matchSpace (c :: cs) =
      if isSpace c then ' ' :: replaceAll matchSpace (cs.dropWhile isSpace)
      else c :: replaceAll matchSpace cs := by
  rw [replaceAll_cons _ matchSpace_shrinks]
  simp only [matchSpace]
  by_cases hc : isSpace c = true
  · simp [hc]
  · simp [hc]

/-- The replacement of `\s+([,.({])`: a run of whitespace in front of a character of the
class is dropped, any other character is copied. -/
theorem spacePunct_cons (c : Char) (cs : Text) :
    replaceAll matchSpacePunct (c :: cs) =
      if isSpace c then
        match cs.dropWhile isSpace with
        | p :: r =>
          if isPunct p then p :: replaceAll matchSpacePunct r
          else c :: replaceAll matchSpacePunct cs
        | [] => c :: replaceAll matchSpacePunct cs
      else c :: replaceAll matchSpacePunct cs := by
  rw [replaceAll_cons _ matchSpacePunct_shrinks]
  simp only [matchSpacePunct]
  by_cases hc : isSpace c = true
  · simp only [hc, if_true]
    cases hd : cs.dropWhile isSpace with
    | nil => rfl
    | cons p r =>
      simp only
      by_cases hp : isPunct p = true
      · simp [hp]
      · simp [hp]
  · simp [hc]

theorem punctSpace_dropWhile : ∀ s : Text,
    (replaceAll matchPunctSpace s).dropWhile isSpace
      = replaceAll matchPunctSpace (s.dropWhile isSpace) := by
  intro s
  induction s with
  | nil => rfl
  | cons c cs ih =>
    by_cases hc : isSpace c = true
    · rw [punctSpace_cons, isSpace_not_punct c hc]
      simp only [Bool.false_eq_true, if_false, List.dropWhile_cons, hc, if_true]
      exact ih
    · have hc' : isSpace c = false := by simpa using hc
      rw [dropWhile_of_head _ _ _ hc', punctSpace_cons, dropWhile_of_head _ _ _ hc']

theorem space_head_not_space (s : Text) (h : ∀ x, s.head? = some x → isSpace x = false) :
    (replaceAll matchSpace s).dropWhile isSpace = replaceAll matchSpace s := by
  cases s with
  | nil => rfl
  | cons c cs =>
    have hc := h c rfl
    rw [space_cons]
    simp only [hc, Bool.false_eq_true, if_false]
    exact dropWhile_of_head _ _ _ hc

theorem dropWhile_head? (s : Text) :
    ∀ x, (s.dropWhile isSpace).head? = some x → isSpace x = false := by
  intro x hx
  cases hd : s.dropWhile isSpace with
  | nil => rw [hd] at hx; cases hx
  | cons y t =>
    rw [hd] at hx
    cases hx
    exact dropWhile_head _ s _ t hd

theorem space_dropWhile (s : Text) :
    (replaceAll matchSpace s).dropWhile isSpace
      = replaceAll matchSpace (s.dropWhile isSpace) := by
  cases s with
  | nil => rfl
  | cons c cs =>
    by_cases hc : isSpace c = true
    · rw [space_cons]
      simp only [hc, if_true, List.dropWhile_cons]
      have hsp : isSpace ' ' = true := by decide
      simp only [hsp, if_true]
      exact space_head_not_space _ (dropWhile_head? cs)
    · have hc' : isSpace c = false := by simpa using hc
      rw [dropWhile_of_head _ _ _ hc']
      exact space_head_not_space _ (fun x hx => by cases hx; exact hc')

/-- Collapsing whitespace commutes with dropping it behind punctuation. -/
theorem space_punctSpace_comm : ∀ (n : Nat) (s : Text), s.length ≤ n →
    replaceAll matchSpace (replaceAll matchPunctSpace s)
      = replaceAll matchPunctSpace (replaceAll matchSpace s) := by
  intro n
  induction n with
  | zero =>
    intro s hs
    have : s = [] := List.length_eq_zero.1 (by omega)
    subst this
    rfl
  | succ n ih =>
    intro s hs
    cases s with
    | nil => rfl
    | cons c cs =>
      simp only [List.length_cons] at hs
      have hdl := length_dropWhile_le isSpace cs
      by_cases hc : isSpace c = true
      · have hnp := isSpace_not_punct c hc
        have hsp : isSpace ' ' = true := by decide
        have hsnp : isPunct ' ' = false := by decide
        rw [punctSpace_cons, hnp]
        simp only [Bool.false_eq_true, if_false]
        rw [space_cons, space_cons]
        simp only [hc, if_true]
        rw [punctSpace_cons, hsnp]
        simp only [Bool.false_eq_true, if_false]
        rw [punctSpace_dropWhile, ih _ (by omega)]
      · have hc' : isSpace c = false := by simpa using hc
        rw [punctSpace_cons, space_cons, space_cons]
        simp only [hc', Bool.false_eq_true, if_false]
        rw [punctSpace_cons]
        by_cases hp : isPunct c = true
        · simp only [hp, if_true]
          rw [space_dropWhile, ih _ (by omega)]
        · have hp' : isPunct c = false := by simpa using hp
          simp only [hp', Bool.false_eq_true, if_false]
          rw [ih _ (by omega)]

theorem spacePunct_of_not_space (c : Char) (cs : Text) (hc : isSpace c = false) :
    replaceAll matchSpacePunct (c :: cs) = c :: replaceAll matchSpacePunct cs := by
  rw [spacePunct_cons]
  simp [hc]

/-- Whitespace that no punctuation follows is copied by the replacement of
`\s+([,.({])`. -/
theorem spacePunct_keeps_run : ∀ cs : Text,
    (∀ p, (cs.dropWhile isSpace).head? = some p → isPunct p = false) →
    replaceAll matchSpacePunct cs =
      cs.takeWhile isSpace ++ replaceAll matchSpacePunct (cs.dropWhile isSpace) := by
  intro cs
  induction cs with
  | nil => intro _; rfl
  | cons c cs ih =>
    intro h
    by_cases hc : isSpace c = true
    · simp only [List.dropWhile_cons, hc, if_true] at h
      rw [spacePunct_cons]
      simp only [hc, if_true, List.takeWhile_cons, List.dropWhile_cons]
      have hkeep : (match cs.dropWhile isSpace with
          | p :: r =>
            if isPunct p then p :: replaceAll matchSpacePunct r
            else c :: replaceAll matchSpacePunct cs
          | [] => c :: replaceAll matchSpacePunct cs) = c :: replaceAll matchSpacePunct cs := by
        cases hd : cs.dropWhile isSpace with
        | nil => rfl
        | cons p r =>
          have := h p (by rw [hd]; rfl)
          simp [this]
      rw [hkeep, ih h]
      rfl
    · have hc' : isSpace c = false := by simpa using hc
      simp [List.takeWhile_cons, List.dropWhile_cons, hc']

theorem spacePunct_head_not_space (t : Text) (h : ∀ x, t.head? = some x → isSpace x = false) :
    (replaceAll matchSpacePunct t).dropWhile isSpace = replaceAll matchSpacePunct t := by
  cases t with
  | nil => rfl
  | cons q r =>
    have hq := h q rfl
    rw [spacePunct_of_not_space q r hq]
    exact dropWhile_of_head _ _ _ hq

/-- Collapsing whitespace commutes with dropping it in front of punctuation. -/
theorem space_spacePunct_comm : ∀ (n : Nat) (s : Text), s.length ≤ n →
    replaceAll matchSpace (replaceAll matchSpacePunct s)
      = replaceAll matchSpacePunct (replaceAll matchSpace s) := by
  intro n
  induction n with
  | zero =>
    intro s hs
    have : s = [] := List.length_eq_zero.1 (by omega)
    subst this
    rfl
  | succ n ih =>
    intro s hs
    cases s with
    | nil => rfl
    | cons c cs =>
      simp only [List.length_cons] at hs
      have hdl := length_dropWhile_le isSpace cs
      have hsp : isSpace ' ' = true := by decide
      by_cases hc : isSpace c = true
      · rw [space_cons]
        simp only [hc, if_true]
        cases hd : cs.dropWhile isSpace with
        | nil =>
          have hkeep := spacePunct_keeps_run (c :: cs) (by
            simp [List.dropWhile_cons, hc, hd])
          simp only [List.dropWhile_cons, hc, if_true, hd, List.takeWhile_cons] at hkeep
          rw [hkeep, replaceAll_nil, List.append_nil, replaceAll_nil, space_cons]
          simp only [hc, if_true]
          rw [List.dropWhile_eq_nil_iff.2 (fun x hx => List.mem_takeWhile_imp hx),
            replaceAll_nil, spacePunct_cons]
          simp [hsp, replaceAll_nil]
        | cons q r =>
          have hq : isSpace q = false := dropWhile_head _ cs q r hd
          have hrl : r.length < cs.length := by
            have := congrArg List.length hd
            simp only [List.length_cons] at this
            omega
          by_cases hp : isPunct q = true
          · rw [spacePunct_cons]
            simp only [hc, if_true, hd, hp]
            rw [space_cons, space_cons]
            simp only [hq, Bool.false_eq_true, if_false]
            rw [spacePunct_cons]
            simp only [hsp, if_true, dropWhile_of_head _ _ _ hq, hp]
            rw [ih r (by omega)]
          · have hp' : isPunct q = false := by simpa using hp
            have hkeep := spacePunct_keeps_run (c :: cs) (by
              simp only [List.dropWhile_cons, hc, if_true, hd]
              intro p hpq
              cases hpq
              exact hp')
            simp only [List.dropWhile_cons, hc, if_true, hd, List.takeWhile_cons] at hkeep
            rw [hkeep, List.cons_append, space_cons]
            simp only [hc, if_true]
            rw [dropWhile_all isSpace (cs.takeWhile isSpace) _ (by
              intro x hx; exact (List.mem_takeWhile_imp hx))]
            rw [spacePunct_head_not_space (q :: r) (fun x hx => by cases hx; exact hq)]
            rw [ih (q :: r) (by simp only [List.length_cons]; omega)]
            rw [space_cons]
            simp only [hq, Bool.false_eq_true, if_false]
            rw [spacePunct_of_not_space q _ hq, spacePunct_cons]
            simp only [hsp, if_true, dropWhile_of_head _ _ _ hq, hp', Bool.false_eq_true,
              if_false]
            rw [spacePunct_of_not_space q _ hq]
      · have hc' : isSpace c = false := by simpa using hc
        rw [spacePunct_of_not_space c cs hc', space_cons, space_cons]
        simp only [hc', Bool.false_eq_true, if_false]
        rw [spacePunct_of_not_space c _ hc', ih cs (by omega)]

theorem space_run (w b : Text) (hw : w ≠ []) (hall : ∀ x ∈ w, isSpace x = true) :
    replaceAll matchSpace (w ++ b) = ' ' :: replaceAll matchSpace (b.dropWhile isSpace) := by
  cases w with
  | nil => exact absurd rfl hw
  | cons x w =>
    rw [List.cons_append, space_cons]
    simp only [hall x (by simp), if_true]
    rw [dropWhile_all isSpace w b (fun y hy => hall y (by simp [hy]))]

/-- Collapsing whitespace forgets the length and kind of a run of whitespace. -/
theorem space_forgets_run (w1 w2 b : Text) (h1 : w1 ≠ []) (h2 : w2 ≠ [])
    (hall1 : ∀ x ∈ w1, isSpace x = true) (hall2 : ∀ x ∈ w2, isSpace x = true) :
    ∀ (n : Nat) (a : Text), a.length ≤ n →
      replaceAll matchSpace (a ++ (w1 ++ b)) = replaceAll matchSpace (a ++ (w2 ++ b)) := by
  intro n
  induction n with
  | zero =>
    intro a ha
    have : a = [] := List.length_eq_zero.1 (by omega)
    subst this
    simp only [List.nil_append]
    rw [space_run w1 b h1 hall1, space_run w2 b h2 hall2]
  | succ n ih =>
    intro a ha
    cases a with
    | nil =>
      simp only [List.nil_append]
      rw [space_run w1 b h1 hall1, space_run w2 b h2 hall2]
    | cons c cs =>
      simp only [List.length_cons] at ha
      rw [List.cons_append, List.cons_append, space_cons, space_cons]
      by_cases hc : isSpace c = true
      · simp only [hc, if_true]
        by_cases hcs : cs.any (fun x => !isSpace x) = true
        · rw [dropWhile_append_of_any _ cs _ hcs, dropWhile_append_of_any _ cs _ hcs]
          have := length_dropWhile_le isSpace cs
          rw [ih _ (by omega)]
        · have hall : ∀ x ∈ cs, isSpace x = true := by
            intro x hx
            by_contra hns
            exact hcs (List.any_eq_true.2 ⟨x, hx, by simpa using hns⟩)
          rw [dropWhile_all _ cs _ hall, dropWhile_all _ cs _ hall,
            dropWhile_all _ w1 _ hall1, dropWhile_all _ w2 _ hall2]
      · have hc' : isSpace c = false := by simpa using hc
        simp only [hc', Bool.false_eq_true, if_false]
        rw [ih cs (by omega)]

/-- The whitespace stages of `normalizeSource`, with the collapsing of whitespace moved
to the front. -/
theorem normalizeSource_eq (src : Text) :
    normalizeSource src =
      trim (replaceAll matchSpacePunct (replaceAll matchPunctSpace
        (replaceAll matchSpace (replaceAll matchComment src)))) := by
  unfold normalizeSource
  rw [space_spacePunct_comm _ _ (le_refl _), space_punctSpace_comm _ _ (le_refl _)]

theorem blockEnd_close : ∀ (c v : Text), (∀ x ∈ c, isLineTerminator x = false) →
    ¬ "*/".toList <:+: c → blockEnd (c ++ ('*' :: '/' :: v)) = some v := by
  intro c
  induction c with
  | nil => intro v _ _; rfl
  | cons x c ih =>
    intro v hlt hno
    rw [List.cons_append, blockEnd_cons]
    have hx : ¬ (x = '*' ∧ (c ++ '*' :: '/' :: v).head? = some '/') := by
      rintro ⟨h1, h2⟩
      cases c with
      | nil => simp at h2
      | cons y ys =>
        simp only [List.cons_append, List.head?_cons, Option.some.injEq] at h2
        apply hno
        subst h1 h2
        exact ⟨[], ys, rfl⟩
    rw [if_neg hx, hlt x (by simp)]
    simp only [Bool.false_eq_true, if_false]
    apply ih v (fun y hy => hlt y (by simp [hy]))
    intro hin
    apply hno
    obtain ⟨s, t, hst⟩ := hin
    exact ⟨x :: s, t, by simp [← hst]⟩

/-- A block comment that opens and closes on one line is removed. -/
theorem stripComments_block (c v : Text) (hlt : ∀ x ∈ c, isLineTerminator x = false)
    (hno : ¬ "*/".toList <:+: c) :
    replaceAll matchComment (("/*".toList ++ c ++ "*/".toList) ++ v)
      = replaceAll matchComment v := by
  have hm : matchComment (("/*".toList ++ c ++ "*/".toList) ++ v) = some ([], v) := by
    show matchComment ('/' :: '*' :: c ++ ['*', '/'] ++ v) = some ([], v)
    simp only [List.cons_append, List.append_assoc, List.nil_append]
    rw [matchComment_cons]
    simp [blockEnd_close c v hlt hno]
  rw [replaceAll_match _ matchComment_shrinks _ _ _ hm]
  rfl

theorem dropWhile_line : ∀ (c v : Text), (∀ x ∈ c, isLineTerminator x = false) →
    (∀ x, v.head? = some x → isLineTerminator x = true) →
    (c ++ v).dropWhile (fun x => !isLineTerminator x) = v := by
  intro c
  induction c with
  | nil =>
    intro v _ hv
    cases v with
    | nil => rfl
    | cons y ys => simp [List.dropWhile_cons, hv y rfl]
  | cons x c ih =>
    intro v hlt hv
    simp only [List.cons_append, List.dropWhile_cons, hlt x (by simp), Bool.not_false, if_true]
    exact ih v (fun y hy => hlt y (by simp [hy])) hv

/-- A line comment that runs to the end of its line is removed. -/
theorem stripComments_line (c v : Text) (hlt : ∀ x ∈ c, isLineTerminator x = false)
    (hv : ∀ x, v.head? = some x → isLineTerminator x = true) :
    replaceAll matchComment (("//".toList ++ c) ++ v) = replaceAll matchComment v := by
  have hm : matchComment (("//".toList ++ c) ++ v) = some ([], v) := by
    show matchComment ('/' :: '/' :: c ++ v) = some ([], v)
    simp only [List.cons_append, List.append_assoc]
    rw [matchComment_cons]
    simp [dropWhile_line c v hlt hv]
  rw [replaceAll_match _ matchComment_shrinks _ _ _ hm]
  rfl

/-- Whitespace is copied by the removal of comments. -/
theorem stripComments_space : ∀ (w v : Text), (∀ x ∈ w, isSpace x = true) →
    replaceAll matchComment (w ++ v) = w ++ replaceAll matchComment v := by
  intro w
  induction w with
  | nil => intro v _; rfl
  | cons x w ih =>
    intro v h
    have hx := isSpace_not_slash x (h x (by simp))
    have hm : matchComment (x :: (w ++ v)) = none := by
      rw [matchComment_cons]; simp [hx.1]
    rw [List.cons_append, replaceAll_skip _ matchComment_shrinks _ _ hm,
      ih v (fun y hy => h y (by simp [hy]))]
    rfl

theorem cosmeticEdit_normalizeSource (s t : Text) (h : CosmeticEdit s t) :
    normalizeSource s = normalizeSource t := by
  cases h with
  | blockComment u c v hu hlt hno =>
    rw [normalizeSource_eq, normalizeSource_eq, List.append_assoc,
      stripComments_append_code u v hu, stripComments_append_code u _ hu,
      stripComments_block c v hlt hno]
  | lineComment u c v hu hlt hv =>
    rw [normalizeSource_eq, normalizeSource_eq, List.append_assoc,
      stripComments_append_code u v hu, stripComments_append_code u _ hu,
      stripComments_line c v hlt hv]
  | whitespace u w1 w2 v hu h1 h2 hall1 hall2 =>
    have hhead : ∀ (w : Text), w ≠ [] → (∀ x ∈ w, isSpace x = true) →
        ∀ x, (w ++ v).head? = some x → x ≠ '/' ∧ x ≠ '*' := by
      intro w hw hall x hx
      cases w with
      | nil => exact absurd rfl hw
      | cons y ys =>
        simp only [List.cons_append, List.head?_cons, Option.some.injEq] at hx
        subst hx
        exact isSpace_not_slash _ (hall _ (by simp))
    rw [normalizeSource_eq, normalizeSource_eq, List.append_assoc, List.append_assoc,
      stripComments_append_open u _ hu (hhead w1 h1 hall1),
      stripComments_append_open u _ hu (hhead w2 h2 hall2),
      stripComments_space w1 v hall1, stripComments_space w2 v hall2,
      space_forgets_run w1 w2 _ h1 h2 hall1 hall2 _ _ (le_refl _)]

/-- C8, as stated, fails: a block comment that spans two lines is not stripped, so
inserting it into `ab` changes the normalized text; turning the space inside a line
comment into a line feed changes the normalized text; and a block comment inserted
directly behind the slash of `a/b` makes a line comment of the rest of the line. -/
theorem normalizeSource_not_invariant :
    normalizeSource "ab".toList = "ab".toList ∧
    normalizeSource "a/*x\ny*/b".toList = "a/*x y*/b".toList ∧
    normalizeSource "a//b c".toList = "a".toList ∧
    normalizeSource "a//b\nc".toList = "a c".toList ∧
    normalizeSource "a/b".toList = "a/b".toList ∧
    normalizeSource "a//*c*/b".toList = "a".toList := by
  decide

/-- C8, amended: when `t` is obtained from `s` by inserting or removing, any number of
times, a block comment that opens and closes on one line or a line comment that runs to
the end of its line, where the text before the comment ends in code, or by changing the
length or kind of a run of whitespace that does not begin inside a comment, then
`normalizeSource s = normalizeSource t`. -/
theorem normalizeSource_cosmetic (s t : Text) (h : Relation.EqvGen CosmeticEdit s t) :
    normalizeSource s = normalizeSource t := by
  induction h with
  | rel x y hxy => exact cosmeticEdit_normalizeSource x y hxy
  | refl x => rfl
  | symm x y _ ih => exact ih.symm
  | trans x y z _ _ ih1 ih2 => exact ih1.trans ih2

/-- C8, amended, on `a = 1;` followed by a line feed and `b`: a block comment is inserted
behind `a = 1;` and the line feed is then turned into two spaces and a tab. -/
theorem normalizeSource_cosmetic_witness :
    normalizeSource ("a = 1;".toList ++ "\nb".toList) =
      normalizeSource ("a = 1;/* one */".toList ++ "  \t".toList ++ "b".toList) ∧
    normalizeSource ("a = 1;/* one */".toList ++ "  \t".toList ++ "b".toList)
      = "a = 1; b".toList :=
  ⟨normalizeSource_cosmetic _ _
    (Relation.EqvGen.trans _ ("a = 1;".toList ++ ("/*".toList ++ " one ".toList
        ++ "*/".toList) ++ "\nb".toList) _
      (Relation.EqvGen.rel _ _
        (CosmeticEdit.blockComment "a = 1;".toList " one ".toList "\nb".toList
          (by decide) (by decide) (by decide)))
      (Relation.EqvGen.rel _ _
        (CosmeticEdit.whitespace "a = 1;/* one */".toList "\n".toList "  \t".toList
          "b".toList (by decide) (by decide) (by decide) (by decide) (by decide)))),
   by decide⟩

/-! ## Rounding, `Number::toString` and `formatMillis` -/

theorem log2Fuel_spec (fuel : Nat) : ∀ n : Nat, n ≤ fuel → 1 ≤ n →
    2 ^ log2Fuel fuel n ≤ n ∧ n < 2 ^ (log2Fuel fuel n + 1) := by
  induction fuel with
  | zero => intro n h1 h2; omega
  | succ fuel ih =>
    intro n h1 h2
    unfold log2Fuel
    by_cases hn : n < 2
    · simp only [hn, if_true]
      have : n = 1 := by omega
      subst this
      simp
    · simp only [hn, if_false]
      have hdiv : 2 * (n / 2) ≤ n ∧ n < 2 * (n / 2) + 2 := by omega
      obtain ⟨h3, h4⟩ := ih (n / 2) (by omega) (by omega)
      constructor
      · rw [pow_succ]; omega
      · rw [pow_succ]; omega

theorem log2_spec (n : Nat) (h : 1 ≤ n) : 2 ^ log2 n ≤ n ∧ n < 2 ^ (log2 n + 1) :=
  log2Fuel_spec n n (le_refl _) h

theorem log2Ratio_spec (p d : Nat) (hp : 1 ≤ p) (hd : 1 ≤ d) :
    (d : ℚ) * (2 : ℚ) ^ (log2Ratio p d) ≤ p ∧ (p : ℚ) < d * (2 : ℚ) ^ (log2Ratio p d + 1) := by
  obtain ⟨ha1, ha2⟩ := log2_spec p hp
  obtain ⟨hb1, hb2⟩ := log2_spec d hd
  have ha1q : ((2 : ℚ) ^ log2 p) ≤ p := by exact_mod_cast ha1
  have ha2q : (p : ℚ) < (2 : ℚ) ^ (log2 p + 1) := by exact_mod_cast ha2
  have hb1q : ((2 : ℚ) ^ log2 d) ≤ d := by exact_mod_cast hb1
  have hb2q : (d : ℚ) < (2 : ℚ) ^ (log2 d + 1) := by exact_mod_cast hb2
  have hdq : (0 : ℚ) < d := by exact_mod_cast hd
  have hpq : (0 : ℚ) < p := by exact_mod_cast hp
  unfold log2Ratio
  by_cases hab : log2 d ≤ log2 p
  · simp only [hab, if_true]
    obtain ⟨t, ht⟩ : ∃ t, log2 p = log2 d + t := ⟨log2 p - log2 d, by omega⟩
    have hsub : log2 p - log2 d = t := by omega
    rw [hsub]
    rw [ht] at ha1q ha2q
    by_cases hc : d * 2 ^ t ≤ p
    · simp only [hc, if_true]
      have hcq : (d : ℚ) * (2 : ℚ) ^ t ≤ p := by exact_mod_cast hc
      refine ⟨by simpa using hcq, ?_⟩
      have : ((t : ℤ) + 1) = ((t + 1 : ℕ) : ℤ) := by push_cast; ring
      rw [this, zpow_natCast]
      calc (p : ℚ) < (2 : ℚ) ^ (log2 d + t + 1) := ha2q
        _ = (2 : ℚ) ^ log2 d * (2 : ℚ) ^ (t + 1) := by ring
        _ ≤ d * (2 : ℚ) ^ (t + 1) := by
            apply mul_le_mul_of_nonneg_right hb1q (by positivity)
    · simp only [hc, if_false]
      have hcq : (p : ℚ) < (d : ℚ) * (2 : ℚ) ^ t := by
        have : p < d * 2 ^ t := by omega
        exact_mod_cast this
      constructor
      · have h2 : (2 : ℚ) ^ ((t : ℤ) - 1) = (2 : ℚ) ^ t / 2 := by
          rw [zpow_sub₀ (by norm_num), zpow_natCast, zpow_one]
        rw [h2]
        have : (d : ℚ) * ((2 : ℚ) ^ t / 2) < (2 : ℚ) ^ (log2 d + t) := by
          have : (d : ℚ) * ((2 : ℚ) ^ t / 2) < (2 : ℚ) ^ (log2 d + 1) * ((2 : ℚ) ^ t / 2) :=
            mul_lt_mul_of_pos_right hb2q (by positivity)
          calc (d : ℚ) * ((2 : ℚ) ^ t / 2) < (2 : ℚ) ^ (log2 d + 1) * ((2 : ℚ) ^ t / 2) := this
            _ = (2 : ℚ) ^ (log2 d + t) := by ring
        linarith
      · have : ((t : ℤ) - 1 + 1) = (t : ℤ) := by ring
        rw [this, zpow_natCast]
        exact hcq
  · simp only [hab, if_false]
    obtain ⟨t, ht⟩ : ∃ t, log2 d = log2 p + t := ⟨log2 d - log2 p, by omega⟩
    have hsub : log2 d - log2 p = t := by omega
    rw [hsub]
    rw [ht] at hb1q hb2q
    have h2t : (0 : ℚ) < (2 : ℚ) ^ t := by positivity
    by_cases hc : d ≤ p * 2 ^ t
    · simp only [hc, if_true]
      have hcq : (d : ℚ) ≤ (p : ℚ) * (2 : ℚ) ^ t := by exact_mod_cast hc
      constructor
      · rw [zpow_neg, zpow_natCast]
        rw [← div_eq_mul_inv, div_le_iff₀ h2t]
        exact hcq
      · have h2 : (2 : ℚ) ^ (-(t : ℤ) + 1) = 2 / (2 : ℚ) ^ t := by
          rw [zpow_add₀ (by norm_num), zpow_neg, zpow_natCast, zpow_one]
          field_simp
        rw [h2, mul_div_assoc', lt_div_iff₀ h2t]
        calc (p : ℚ) * (2 : ℚ) ^ t < (2 : ℚ) ^ (log2 p + 1) * (2 : ℚ) ^ t :=
              mul_lt_mul_of_pos_right ha2q h2t
          _ = (2 : ℚ) ^ (log2 p + t) * 2 := by ring
          _ ≤ d * 2 := by
              apply mul_le_mul_of_nonneg_right hb1q (by norm_num)
    · simp only [hc, if_false]
      have hcq : (p : ℚ) * (2 : ℚ) ^ t < (d : ℚ) := by
        have : p * 2 ^ t < d := by omega
        exact_mod_cast this
      constructor
      · have h2 : (2 : ℚ) ^ (-(t : ℤ) - 1) = 1 / ((2 : ℚ) ^ t * 2) := by
          rw [zpow_sub₀ (by norm_num), zpow_neg, zpow_natCast, zpow_one]
          field_simp
        rw [h2, mul_one_div, div_le_iff₀ (by positivity)]
        calc (d : ℚ) ≤ (2 : ℚ) ^ (log2 p + t + 1) := le_of_lt hb2q
          _ = (2 : ℚ) ^ log2 p * ((2 : ℚ) ^ t * 2) := by ring
          _ ≤ p * ((2 : ℚ) ^ t * 2) := by
              apply mul_le_mul_of_nonneg_right ha1q (by positivity)
      · have : (-(t : ℤ) - 1 + 1) = -(t : ℤ) := by ring
        rw [this, zpow_neg, zpow_natCast, ← div_eq_mul_inv, lt_div_iff₀ h2t]
        exact hcq


theorem scaled_spec (p d : Nat) (e : ℤ) (hd : 0 < d) :
    (0 : ℚ) < ((if 0 ≤ e then d * 2 ^ e.toNat else d : Nat) : ℚ) ∧
    (((if 0 ≤ e then p else p * 2 ^ (-e).toNat : Nat) : ℚ)) /
        ((if 0 ≤ e then d * 2 ^ e.toNat else d : Nat) : ℚ)
      = (p : ℚ) / d / (2 : ℚ) ^ e := by
  have hdq : (0 : ℚ) < d := by exact_mod_cast hd
  by_cases he : 0 ≤ e
  · simp only [he, if_true]
    obtain ⟨t, rfl⟩ : ∃ t : ℕ, e = t := ⟨e.toNat, (Int.toNat_of_nonneg he).symm⟩
    simp only [Int.toNat_ofNat, zpow_natCast]
    push_cast
    refine ⟨by positivity, ?_⟩
    field_simp
  · simp only [he, if_false]
    obtain ⟨t, ht⟩ : ∃ t : ℕ, -e = t := ⟨(-e).toNat, (Int.toNat_of_nonneg (by omega)).symm⟩
    have he' : e = -(t : ℤ) := by omega
    rw [ht, he']
    simp only [Int.toNat_ofNat, zpow_neg, zpow_natCast]
    push_cast
    refine ⟨hdq, ?_⟩
    field_simp

theorem nearest_spec (x y : Nat) (hy : 0 < y) :
    x / y ≤ (if y < 2 * (x % y) ∨ (2 * (x % y) = y ∧ x / y % 2 = 1) then x / y + 1 else x / y) ∧
    (if y < 2 * (x % y) ∨ (2 * (x % y) = y ∧ x / y % 2 = 1) then x / y + 1 else x / y)
      ≤ x / y + 1 ∧
    |(((if y < 2 * (x % y) ∨ (2 * (x % y) = y ∧ x / y % 2 = 1) then x / y + 1 else x / y : Nat) : ℚ))
      - (x : ℚ) / y| ≤ 1 / 2 ∧
    ((x / y : Nat) : ℚ) ≤ (x : ℚ) / y ∧ (x : ℚ) / y < ((x / y : Nat) : ℚ) + 1 := by
  have hyq : (0 : ℚ) < y := by exact_mod_cast hy
  have hdm : (x : ℚ) = y * ((x / y : Nat) : ℚ) + ((x % y : Nat) : ℚ) := by
    exact_mod_cast (Nat.div_add_mod x y).symm
  have hr : x % y < y := Nat.mod_lt x hy
  have hrq : ((x % y : Nat) : ℚ) < y := by exact_mod_cast hr
  have hr0 : (0 : ℚ) ≤ ((x % y : Nat) : ℚ) := by positivity
  have hz : (x : ℚ) / y = ((x / y : Nat) : ℚ) + ((x % y : Nat) : ℚ) / y := by
    rw [hdm]; field_simp; ring
  have hfrac0 : (0 : ℚ) ≤ ((x % y : Nat) : ℚ) / y := by positivity
  have hfrac1 : ((x % y : Nat) : ℚ) / y < 1 := by
    rw [div_lt_one hyq]; exact hrq
  refine ⟨by split <;> omega, by split <;> omega, ?_, by linarith, by linarith⟩
  split
  · rename_i h
    have h2 : (1 : ℚ) / 2 ≤ ((x % y : Nat) : ℚ) / y := by
      rw [le_div_iff₀ hyq]
      have : y ≤ 2 * (x % y) := by omega
      have : (y : ℚ) ≤ 2 * ((x % y : Nat) : ℚ) := by exact_mod_cast this
      linarith
    push_cast
    rw [hz, abs_le]
    constructor <;> linarith
  · rename_i h
    have h2 : ((x % y : Nat) : ℚ) / y ≤ 1 / 2 := by
      rw [div_le_iff₀ hyq]
      have : 2 * (x % y) ≤ y := by omega
      have : 2 * ((x % y : Nat) : ℚ) ≤ (y : ℚ) := by exact_mod_cast this
      linarith
    rw [hz, abs_le]
    constructor <;> linarith

theorem Double.val_mk (m : Nat) (e : Int) : (Double.mk m e).val = (m : ℚ) * (2 : ℚ) ^ e := rfl

/-- The number nearest to a positive rational `q`: its value is `M * 2 ^ e0` for the
exponent `e0` with `2 ^ (e0 + 52) ≤ q < 2 ^ (e0 + 53)` and a natural number `M` at most
one half away from `q / 2 ^ e0`, and its mantissa lies in `[2^52, 2^53)`. -/
theorem roundNE_spec (q : ℚ) (hq : 0 < q) :
    ∃ (e0 : ℤ) (M : ℕ), (roundNE q).val = (M : ℚ) * (2 : ℚ) ^ e0 ∧
      (2 : ℚ) ^ (e0 + 52) ≤ q ∧ q < (2 : ℚ) ^ (e0 + 53) ∧
      |(M : ℚ) - q / (2 : ℚ) ^ e0| ≤ 1 / 2 ∧
      2 ^ 52 ≤ (roundNE q).m ∧ (roundNE q).m < 2 ^ 53 := by
  have hnum : 0 < q.num := Rat.num_pos.2 hq
  have hp : 1 ≤ q.num.toNat := by omega
  have hd : 1 ≤ q.den := q.den_pos
  have hpq : ((q.num.toNat : ℕ) : ℚ) / (q.den : ℚ) = q := by
    have h1 : ((q.num.toNat : ℕ) : ℤ) = q.num := Int.toNat_of_nonneg (le_of_lt hnum)
    have h2 : ((q.num.toNat : ℕ) : ℚ) = (q.num : ℚ) := by exact_mod_cast h1
    rw [h2]; exact Rat.num_div_den q
  obtain ⟨hL1, hL2⟩ := log2Ratio_spec q.num.toNat q.den hp hd
  obtain ⟨hy, hxy⟩ := scaled_spec q.num.toNat q.den (log2Ratio q.num.toNat q.den - 52) hd
  rw [hpq] at hxy
  have hdq : (0 : ℚ) < q.den := by exact_mod_cast hd
  generalize hL : log2Ratio q.num.toNat q.den = L at *
  have hqL1 : (2 : ℚ) ^ L ≤ q := by
    have h : (2 : ℚ) ^ L ≤ ((q.num.toNat : ℕ) : ℚ) / (q.den : ℚ) := by
      rw [le_div_iff₀ hdq]; linarith
    rwa [hpq] at h
  have hqL2 : q < (2 : ℚ) ^ (L + 1) := by
    have h : ((q.num.toNat : ℕ) : ℚ) / (q.den : ℚ) < (2 : ℚ) ^ (L + 1) := by
      rw [div_lt_iff₀ hdq]; linarith
    rwa [hpq] at h
  generalize hx : (if 0 ≤ L - 52 then q.num.toNat else q.num.toNat * 2 ^ (-(L - 52)).toNat) = x
    at *
  generalize hyy : (if 0 ≤ L - 52 then q.den * 2 ^ (L - 52).toNat else q.den) = y at *
  have hypos : 0 < y := by exact_mod_cast hy
  obtain ⟨hm1, hm2, hm3, hm4, hm5⟩ := nearest_spec x y hypos
  have hround : roundNE q =
      if (if y < 2 * (x % y) ∨ (2 * (x % y) = y ∧ x / y % 2 = 1) then x / y + 1 else x / y)
          = 2 ^ 53 then ⟨2 ^ 52, L - 52 + 1⟩
      else ⟨(if y < 2 * (x % y) ∨ (2 * (x % y) = y ∧ x / y % 2 = 1) then x / y + 1 else x / y),
        L - 52⟩ := by
    unfold roundNE
    have hp0 : ¬ q.num.toNat = 0 := by omega
    simp only [hp0, if_false, hL, hx, hyy]
  generalize hm : (if y < 2 * (x % y) ∨ (2 * (x % y) = y ∧ x / y % 2 = 1) then x / y + 1
    else x / y) = m at *
  have h52 : (2 : ℚ) ^ (L - 52 + 52) = (2 : ℚ) ^ L := by ring_nf
  have h53 : (2 : ℚ) ^ (L - 52 + 53) = (2 : ℚ) ^ (L + 1) := by ring_nf
  have hpos : (0 : ℚ) < (2 : ℚ) ^ (L - 52) := by positivity
  have hz1 : (2 : ℚ) ^ 52 ≤ (x : ℚ) / y := by
    rw [hxy, le_div_iff₀ hpos]
    calc (2 : ℚ) ^ 52 * (2 : ℚ) ^ (L - 52) = (2 : ℚ) ^ L := by
          rw [← zpow_natCast, ← zpow_add₀ (by norm_num)]; ring_nf
      _ ≤ q := hqL1
  have hz2 : (x : ℚ) / y < (2 : ℚ) ^ 53 := by
    rw [hxy, div_lt_iff₀ hpos]
    calc q < (2 : ℚ) ^ (L + 1) := hqL2
      _ = (2 : ℚ) ^ 53 * (2 : ℚ) ^ (L - 52) := by
          rw [← zpow_natCast, ← zpow_add₀ (by norm_num)]; ring_nf
  have hm0lo : 2 ^ 52 ≤ x / y := by
    have : ((2 ^ 52 : ℕ) : ℚ) < ((x / y : ℕ) : ℚ) + 1 := by push_cast; linarith
    have : (2 ^ 52 : ℕ) < x / y + 1 := by exact_mod_cast this
    omega
  have hm0hi : x / y < 2 ^ 53 := by
    have : ((x / y : ℕ) : ℚ) < ((2 ^ 53 : ℕ) : ℚ) := by push_cast; linarith
    exact_mod_cast this
  refine ⟨L - 52, m, ?_, by rw [h52]; exact hqL1, by rw [h53]; exact hqL2,
    by rw [← hxy]; exact hm3, ?_, ?_⟩
  · rw [hround]
    split
    · rename_i h
      rw [Double.val_mk, h, zpow_add₀ (by norm_num)]
      push_cast
      ring
    · rfl
  · rw [hround]
    split
    · exact le_refl _
    · show 2 ^ 52 ≤ m
      omega
  · rw [hround]
    split
    · show 2 ^ 52 < 2 ^ 53
      norm_num
    · rename_i h
      show m < 2 ^ 53
      omega


theorem Double.val_eq_num_div_den (x : Double) : x.val = (x.num : ℚ) / (x.den : ℚ) := by
  unfold Double.val Double.num Double.den
  by_cases he : 0 ≤ x.e
  · simp only [he, if_true]
    obtain ⟨t, ht⟩ : ∃ t : ℕ, x.e = t := ⟨x.e.toNat, (Int.toNat_of_nonneg he).symm⟩
    rw [ht]
    simp only [Int.toNat_ofNat, zpow_natCast]
    push_cast
    ring
  · simp only [he, if_false]
    obtain ⟨t, ht⟩ : ∃ t : ℕ, -x.e = t := ⟨(-x.e).toNat, (Int.toNat_of_nonneg (by omega)).symm⟩
    have he' : x.e = -(t : ℤ) := by omega
    rw [ht, he']
    simp only [Int.toNat_ofNat, zpow_neg, zpow_natCast]
    push_cast
    rw [div_eq_mul_inv]

theorem Double.den_pos (x : Double) : 0 < x.den := by
  unfold Double.den
  split
  · exact Nat.one_pos
  · exact Nat.pos_pow_of_pos _ (by norm_num)

theorem Double.floor_eq (x : Double) (k : Nat) (h1 : (k : ℚ) ≤ x.val) (h2 : x.val < (k : ℚ) + 1) :
    x.floor = k := by
  have hd : (0 : ℚ) < x.den := by exact_mod_cast x.den_pos
  rw [x.val_eq_num_div_den] at h1 h2
  rw [le_div_iff₀ hd] at h1
  rw [div_lt_iff₀ hd] at h2
  have h1' : k * x.den ≤ x.num := by exact_mod_cast h1
  have h2' : x.num < (k + 1) * x.den := by exact_mod_cast h2
  unfold Double.floor
  apply Nat.div_eq_of_lt_le
  · exact h1'
  · exact h2'

theorem roundNE_zero : roundNE 0 = ⟨0, 0⟩ := by
  unfold roundNE
  simp

theorem Double.ofNat_eq (n : Nat) : Double.ofNat n = roundNE (n : ℚ) := by
  unfold Double.ofNat
  congr 1
  rw [Rat.mkRat_eq_div]
  simp

theorem Double.div_eq (x : Double) (c : Nat) : x.div c = roundNE (x.val / c) := by
  unfold Double.div
  congr 1
  rw [Rat.mkRat_eq_div, x.val_eq_num_div_den]
  push_cast
  rw [div_div]

/-- The relative error of rounding is at most `2 ^ -53`. -/
theorem roundNE_error (q : ℚ) (hq : 0 < q) :
    |(roundNE q).val - q| ≤ q / 2 ^ 53 := by
  obtain ⟨e0, M, hval, hlo, -, habs, -, -⟩ := roundNE_spec q hq
  have hpos : (0 : ℚ) < (2 : ℚ) ^ e0 := by positivity
  have h1 : (roundNE q).val - q = ((M : ℚ) - q / (2 : ℚ) ^ e0) * (2 : ℚ) ^ e0 := by
    rw [hval]; field_simp
  rw [h1, abs_mul, abs_of_pos hpos]
  have h2 : (2 : ℚ) ^ e0 * 2 ^ 52 ≤ q := by
    have : (2 : ℚ) ^ (e0 + 52) = (2 : ℚ) ^ e0 * 2 ^ 52 := by
      rw [zpow_add₀ (by norm_num)]; norm_num
    rw [← this]; exact hlo
  calc |(M : ℚ) - q / (2 : ℚ) ^ e0| * (2 : ℚ) ^ e0 ≤ 1 / 2 * (2 : ℚ) ^ e0 :=
        mul_le_mul_of_nonneg_right habs (le_of_lt hpos)
    _ ≤ q / 2 ^ 53 := by
        rw [le_div_iff₀ (by positivity)]
        have : (1 : ℚ) / 2 * (2 : ℚ) ^ e0 * 2 ^ 53 = (2 : ℚ) ^ e0 * 2 ^ 52 := by ring
        rw [this]; exact h2

/-- Rounding does not cross a natural number below `2 ^ 53`. -/
theorem roundNE_grid (q : ℚ) (hq : 0 < q) (hq53 : q < 2 ^ 53) (k : Nat) :
    ((k : ℚ) ≤ q → (k : ℚ) ≤ (roundNE q).val) ∧ (q ≤ (k : ℚ) → (roundNE q).val ≤ (k : ℚ)) := by
  obtain ⟨e0, M, hval, hlo, -, habs, -, -⟩ := roundNE_spec q hq
  have he0 : e0 ≤ 0 := by
    have h : (2 : ℚ) ^ (e0 + 52) < (2 : ℚ) ^ (53 : ℤ) := by
      calc (2 : ℚ) ^ (e0 + 52) ≤ q := hlo
        _ < 2 ^ 53 := hq53
        _ = (2 : ℚ) ^ (53 : ℤ) := by norm_num
    have := (zpow_lt_zpow_iff_right₀ (by norm_num : (1 : ℚ) < 2)).1 h
    omega
  obtain ⟨t, ht⟩ : ∃ t : ℕ, -e0 = t := ⟨(-e0).toNat, (Int.toNat_of_nonneg (by omega)).symm⟩
  have he0' : e0 = -(t : ℤ) := by omega
  have hpow : (2 : ℚ) ^ e0 = 1 / (2 : ℚ) ^ t := by
    rw [he0', zpow_neg, zpow_natCast, one_div]
  have h2t : (0 : ℚ) < (2 : ℚ) ^ t := by positivity
  rw [hpow] at hval habs
  rw [abs_le] at habs
  have hdiv : q / (1 / (2 : ℚ) ^ t) = q * (2 : ℚ) ^ t := by field_simp
  rw [hdiv] at habs
  rw [hval]
  constructor
  · intro hk
    have h1 : ((k * 2 ^ t : ℕ) : ℚ) ≤ q * (2 : ℚ) ^ t := by
      push_cast
      exact mul_le_mul_of_nonneg_right hk (le_of_lt h2t)
    have h2 : ((k * 2 ^ t : ℕ) : ℚ) < (M : ℚ) + 1 := by linarith [habs.1]
    have h3 : k * 2 ^ t < M + 1 := by exact_mod_cast h2
    have h4 : k * 2 ^ t ≤ M := by omega
    have h5 : ((k * 2 ^ t : ℕ) : ℚ) ≤ (M : ℚ) := by exact_mod_cast h4
    rw [mul_one_div, le_div_iff₀ h2t]
    push_cast at h5
    exact h5
  · intro hk
    have h1 : q * (2 : ℚ) ^ t ≤ ((k * 2 ^ t : ℕ) : ℚ) := by
      push_cast
      exact mul_le_mul_of_nonneg_right hk (le_of_lt h2t)
    have h2 : (M : ℚ) < ((k * 2 ^ t : ℕ) : ℚ) + 1 := by linarith [habs.2]
    have h3 : M < k * 2 ^ t + 1 := by exact_mod_cast h2
    have h4 : M ≤ k * 2 ^ t := by omega
    have h5 : (M : ℚ) ≤ ((k * 2 ^ t : ℕ) : ℚ) := by exact_mod_cast h4
    rw [mul_one_div, div_le_iff₀ h2t]
    push_cast at h5
    exact h5

/-- A natural number below `2 ^ 53` is a number. -/
theorem Double.ofNat_val (i : Nat) (h : i < 2 ^ 53) : (Double.ofNat i).val = i := by
  rw [Double.ofNat_eq]
  by_cases hi : i = 0
  · subst hi
    simp [roundNE_zero, Double.val]
  · have hq : (0 : ℚ) < (i : ℚ) := by
      have : 0 < i := Nat.pos_of_ne_zero hi
      exact_mod_cast this
    have h53 : (i : ℚ) < 2 ^ 53 := by exact_mod_cast h
    obtain ⟨h1, h2⟩ := roundNE_grid (i : ℚ) hq h53 i
    exact le_antisymm (h2 (le_refl _)) (h1 (le_refl _))

/-- The integer part of a quotient `n / c`, computed in numbers: for `n < 2 ^ 53` and a
divisor `c ≥ 2`, `Math.floor(n / c)` is the integer quotient. -/
theorem floor_div_exact (n c : Nat) (hn : n < 2 ^ 53) (hc : 2 ≤ c) :
    ((Double.ofNat n).div c).floor = n / c := by
  have hcq : (0 : ℚ) < c := by
    have : 0 < c := by omega
    exact_mod_cast this
  rw [Double.div_eq, Double.ofNat_val n hn]
  by_cases hn0 : n = 0
  · subst hn0
    simp [roundNE_zero, Double.floor, Double.num, Double.den]
  have hnq : (0 : ℚ) < n := by
    have : 0 < n := Nat.pos_of_ne_zero hn0
    exact_mod_cast this
  have hq : (0 : ℚ) < (n : ℚ) / c := by positivity
  have hn53 : (n : ℚ) < 2 ^ 53 := by exact_mod_cast hn
  have hq53 : (n : ℚ) / c < 2 ^ 53 := by
    rw [div_lt_iff₀ hcq]
    have : (2 : ℚ) ≤ c := by exact_mod_cast hc
    nlinarith
  -- the quotient lies between `k` and `k + (c - 1) / c`
  have hdm : n = c * (n / c) + n % c := (Nat.div_add_mod n c).symm
  have hr : n % c < c := Nat.mod_lt n (by omega)
  have hdmq : (n : ℚ) = c * ((n / c : ℕ) : ℚ) + ((n % c : ℕ) : ℚ) := by exact_mod_cast hdm
  have hrq : ((n % c : ℕ) : ℚ) + 1 ≤ c := by
    have : n % c + 1 ≤ c := by omega
    exact_mod_cast this
  have hr0 : (0 : ℚ) ≤ ((n % c : ℕ) : ℚ) := by positivity
  have hk1 : ((n / c : ℕ) : ℚ) ≤ (n : ℚ) / c := by
    rw [le_div_iff₀ hcq]; linarith
  have hk2 : (n : ℚ) / c + 1 / c ≤ ((n / c : ℕ) : ℚ) + 1 := by
    rw [← add_div, div_le_iff₀ hcq]; linarith
  apply Double.floor_eq
  · exact (roundNE_grid _ hq hq53 (n / c)).1 hk1
  · have herr := roundNE_error _ hq
    rw [abs_le] at herr
    have h3 : (n : ℚ) / c / 2 ^ 53 < 1 / c := by
      rw [div_div, div_lt_div_iff₀ (by positivity) hcq]
      nlinarith
    linarith [herr.2]


/-- Two rationals a tenth apart do not round to the same number, below `10 ^ 13`. -/
theorem roundNE_separates (q c : ℚ) (hq : 0 < q) (hq13 : q < 10 ^ 13) (hc : 0 ≤ c)
    (hfar : 1 / 10 ≤ |c - q|) : roundNE c ≠ roundNE q := by
  intro heq
  obtain ⟨-, -, -, -, -, -, hm, -⟩ := roundNE_spec q hq
  rcases eq_or_lt_of_le hc with hc0 | hcpos
  · rw [← hc0, roundNE_zero] at heq
    rw [← heq] at hm
    simp at hm
  · have h1 := roundNE_error c hcpos
    have h2 := roundNE_error q hq
    rw [heq] at h1
    rw [abs_le] at h1 h2
    have h53 : (0 : ℚ) < 2 ^ 53 := by positivity
    have hcq : c / 2 ^ 53 ≤ c / 2 := by
      apply div_le_div_of_nonneg_left (le_of_lt hcpos) (by norm_num) (by norm_num)
    have hq2 : q / 2 ^ 53 ≤ q / 2 := by
      apply div_le_div_of_nonneg_left (le_of_lt hq) (by norm_num) (by norm_num)
    have hc3 : c ≤ 3 * q := by linarith [h1.1, h1.2, h2.1, h2.2]
    have hsmall : (c + q) / 2 ^ 53 < 1 / 10 := by
      rw [div_lt_iff₀ h53]
      have : (c + q) ≤ 4 * q := by linarith
      have : (4 : ℚ) * 10 ^ 13 < 1 / 10 * 2 ^ 53 := by norm_num
      linarith
    have habs : |c - q| ≤ (c + q) / 2 ^ 53 := by
      rw [abs_le, add_div]
      constructor <;> linarith [h1.1, h1.2, h2.1, h2.2]
    linarith

theorem toDigits_eq (fuel n : Nat) (ds : Text) (h : n < fuel) :
    Nat.toDigitsCore 10 fuel n ds = Nat.toDigits 10 n ++ ds := by
  induction n using Nat.strong_induction_on generalizing fuel ds with
  | _ n ih =>
    obtain ⟨f, rfl⟩ : ∃ f, fuel = f + 1 := ⟨fuel - 1, by omega⟩
    unfold Nat.toDigits
    simp only [Nat.toDigitsCore]
    by_cases h0 : n / 10 = 0
    · simp [h0]
    · simp only [h0, if_false]
      have hlt : n / 10 < n := by omega
      rw [ih (n / 10) hlt f _ (by omega), ih (n / 10) hlt n _ hlt]
      simp

theorem toDigits_step (n : Nat) (h : n / 10 ≠ 0) :
    Nat.toDigits 10 n = Nat.toDigits 10 (n / 10) ++ [Nat.digitChar (n % 10)] := by
  conv_lhs => unfold Nat.toDigits
  simp only [Nat.toDigitsCore, h, if_false]
  exact toDigits_eq n (n / 10) _ (by omega)

theorem toDigits_small (n : Nat) (h : n / 10 = 0) :
    Nat.toDigits 10 n = [Nat.digitChar (n % 10)] := by
  unfold Nat.toDigits
  simp [Nat.toDigitsCore, h]

theorem toDigits_mul_pow (s : Nat) (hs : 1 ≤ s) (t : Nat) :
    Nat.toDigits 10 (s * 10 ^ t) = Nat.toDigits 10 s ++ zeros t := by
  induction t with
  | zero => simp [zeros]
  | succ t ih =>
    have hpos : 1 ≤ s * 10 ^ t := Nat.mul_pos hs (Nat.pos_pow_of_pos _ (by norm_num))
    have h1 : s * 10 ^ (t + 1) / 10 = s * 10 ^ t := by
      rw [pow_succ, ← mul_assoc]; exact Nat.mul_div_cancel _ (by norm_num)
    have h2 : s * 10 ^ (t + 1) % 10 = 0 := by
      rw [pow_succ, ← mul_assoc]; exact Nat.mul_mod_left _ _
    have h0 : Nat.digitChar 0 = '0' := rfl
    rw [toDigits_step _ (by rw [h1]; omega), h1, h2, ih, h0]
    simp [zeros, List.replicate_succ']

theorem toDigits_length_le (a l : Nat) (hl : 0 < l) (h : a < 10 ^ l) :
    (Nat.toDigits 10 a).length ≤ l :=
  Nat.toDigitsCore_length 10 (by norm_num) (a + 1) a l h hl

theorem digitChar_ne_zero (d : Nat) (h1 : d ≠ 0) (h2 : d < 10) : Nat.digitChar d ≠ '0' := by
  interval_cases d <;> first | exact absurd rfl h1 | decide

theorem toDigits_last (s : Nat) :
    ∃ pre, Nat.toDigits 10 s = pre ++ [Nat.digitChar (s % 10)] := by
  by_cases h : s / 10 = 0
  · exact ⟨[], by rw [toDigits_small s h]; rfl⟩
  · exact ⟨_, toDigits_step s h⟩

theorem stripZeros_toDigits (s : Nat) (h : s % 10 ≠ 0) :
    stripZeros (Nat.toDigits 10 s) = Nat.toDigits 10 s := by
  obtain ⟨pre, hpre⟩ := toDigits_last s
  have hne := digitChar_ne_zero (s % 10) h (Nat.mod_lt _ (by norm_num))
  rw [hpre]
  unfold stripZeros
  simp [List.dropWhile_cons, hne]

theorem decompose_pow_ten (j : Nat) (hj : 1 ≤ j) :
    ∃ t s, j = s * 10 ^ t ∧ s % 10 ≠ 0 := by
  induction j using Nat.strong_induction_on with
  | _ j ih =>
    by_cases h : j % 10 = 0
    · have hdiv : j = j / 10 * 10 := by omega
      obtain ⟨t, s, hts, hs⟩ := ih (j / 10) (by omega) (by omega)
      refine ⟨t + 1, s, ?_, hs⟩
      rw [hdiv, hts, pow_succ]
      ring
    · exact ⟨0, j, by simp, h⟩

theorem candidate_neg (s u : Nat) : candidate s (-(u : Int)) = ((s * 10 ^ u : Nat) : ℚ) := by
  unfold candidate
  by_cases hu : u = 0
  · subst hu
    simp [Rat.mkRat_eq_div]
  · have hneg : ¬ (0 : Int) ≤ -(u : Int) := by omega
    rw [if_neg hneg]
    simp [Rat.mkRat_eq_div]

theorem candidate_one (s : Nat) : candidate s 1 = (s : ℚ) / 10 := by
  unfold candidate
  simp [Rat.mkRat_eq_div]

theorem tryDigits_none (x : Double) (n : Int) (k : Nat)
    (h : ∀ s, roundNE (candidate s ((k : Int) - n)) ≠ x) : tryDigits x n k = none := by
  unfold tryDigits
  simp [h]

theorem tryDigits_unique (x : Double) (n : Int) (k s : Nat)
    (hs : roundNE (candidate s ((k : Int) - n)) = x)
    (hother : ∀ t, t ≠ s → roundNE (candidate t ((k : Int) - n)) ≠ x)
    (hlo : (if 0 ≤ (k : Int) - n then x.num * 10 ^ ((k : Int) - n).toNat else x.num) /
        (if 0 ≤ (k : Int) - n then x.den else x.den * 10 ^ (-((k : Int) - n)).toNat) = s ∨
      (if 0 ≤ (k : Int) - n then x.num * 10 ^ ((k : Int) - n).toNat else x.num) /
        (if 0 ≤ (k : Int) - n then x.den else x.den * 10 ^ (-((k : Int) - n)).toNat) + 1 = s) :
    tryDigits x n k = some (s, (k : Int) - n) := by
  unfold tryDigits
  dsimp only
  generalize (if 0 ≤ (k : Int) - n then x.num * 10 ^ ((k : Int) - n).toNat else x.num) /
        (if 0 ≤ (k : Int) - n then x.den else x.den * 10 ^ (-((k : Int) - n)).toNat) = lo
    at hlo ⊢
  rcases hlo with h | h
  · subst h
    simp [hs, hother (lo + 1) (by omega)]
  · subst h
    simp [hs, hother lo (by omega)]

theorem shortest_skip (x : Double) (n : Int) (r : Nat × Int) (K : Nat)
    (hK : tryDigits x n K = some r) :
    ∀ (fuel k0 : Nat), k0 ≤ K → K - k0 < fuel →
      (∀ k, k0 ≤ k → k < K → tryDigits x n k = none) → shortest x n fuel k0 = some r := by
  intro fuel
  induction fuel with
  | zero => intro k0 _ h; omega
  | succ fuel ih =>
    intro k0 hk0 hf hnone
    unfold shortest
    rcases Nat.eq_or_lt_of_le hk0 with heq | hlt
    · subst heq
      rw [hK]
    · rw [hnone k0 (le_refl _) hlt]
      exact ih (k0 + 1) hlt (by omega) (fun k h1 h2 => hnone k (by omega) h2)

theorem abs_tenth (a b : Nat) (h : a ≠ b) : (1 : ℚ) / 10 ≤ |(a : ℚ) / 10 - (b : ℚ) / 10| := by
  rcases Nat.lt_or_gt_of_ne h with h1 | h1
  · have : ((a + 1 : Nat) : ℚ) ≤ b := by exact_mod_cast h1
    push_cast at this
    rw [abs_of_nonpos (by linarith)]
    linarith
  · have : ((b + 1 : Nat) : ℚ) ≤ a := by exact_mod_cast h1
    push_cast at this
    rw [abs_of_nonneg (by linarith)]
    linarith

theorem tenth_pos (j : Nat) (hj10 : 10 ≤ j) : (0 : ℚ) < (j : ℚ) / 10 := by
  have : (10 : ℚ) ≤ j := by exact_mod_cast hj10
  linarith

theorem tenth_lt (j : Nat) (hj : j < 10 ^ 14) : (j : ℚ) / 10 < 10 ^ 13 := by
  have : (j : ℚ) < 10 ^ 14 := by exact_mod_cast hj
  linarith

theorem no_candidate_tenth (j : Nat) (hj10 : 10 ≤ j) (hj : j < 10 ^ 14) (s : Nat) (h : s ≠ j) :
    roundNE ((s : ℚ) / 10) ≠ roundNE ((j : ℚ) / 10) :=
  roundNE_separates _ _ (tenth_pos j hj10) (tenth_lt j hj) (by positivity) (abs_tenth s j h)

theorem no_candidate_nat (j : Nat) (hj10 : 10 ≤ j) (hj : j < 10 ^ 14) (c : Nat)
    (h : c * 10 ≠ j) : roundNE (c : ℚ) ≠ roundNE ((j : ℚ) / 10) := by
  have := no_candidate_tenth j hj10 hj (c * 10) h
  have hc : (((c * 10 : Nat) : ℚ)) / 10 = c := by push_cast; field_simp
  rwa [hc] at this

theorem tenth_floor (j : Nat) (hj10 : 10 ≤ j) (hj : j < 10 ^ 14) :
    (roundNE ((j : ℚ) / 10)).num / (roundNE ((j : ℚ) / 10)).den = j / 10 := by
  have hq := tenth_pos j hj10
  have hq13 := tenth_lt j hj
  have hq53 : (j : ℚ) / 10 < 2 ^ 53 := by
    have : (10 : ℚ) ^ 13 < 2 ^ 53 := by norm_num
    linarith
  have hle : ((j / 10 : Nat) : ℚ) ≤ (j : ℚ) / 10 := by
    have := @Nat.cast_div_le ℚ _ j 10
    simpa using this
  have hup : (j : ℚ) / 10 ≤ ((j / 10 : Nat) : ℚ) + 9 / 10 := by
    have h1 : j ≤ 10 * (j / 10) + 9 := by omega
    have h2 : (j : ℚ) ≤ ((10 * (j / 10) + 9 : Nat) : ℚ) := by exact_mod_cast h1
    push_cast at h2
    linarith
  have herr := roundNE_error _ hq
  rw [abs_le] at herr
  have hsmall : (j : ℚ) / 10 / 2 ^ 53 < 1 / 10 := by
    rw [div_lt_iff₀ (by positivity)]
    have : (10 : ℚ) ^ 13 < 1 / 10 * 2 ^ 53 := by norm_num
    linarith
  exact Double.floor_eq _ _ ((roundNE_grid _ hq hq53 (j / 10)).1 hle) (by linarith [herr.2])

theorem magnitude_of_le (vn vd : Nat) (h : vd ≤ vn) :
    magnitude vn vd = ((Nat.toDigits 10 (vn / vd)).length : Int) := by
  unfold magnitude
  rw [if_pos h]

theorem tenth_magnitude (j : Nat) (hj10 : 10 ≤ j) (hj : j < 10 ^ 14) :
    magnitude (roundNE ((j : ℚ) / 10)).num (roundNE ((j : ℚ) / 10)).den =
      ((Nat.toDigits 10 (j / 10)).length : Int) := by
  have hf := tenth_floor j hj10 hj
  have hle : (roundNE ((j : ℚ) / 10)).den ≤ (roundNE ((j : ℚ) / 10)).num := by
    by_contra hlt
    rw [Nat.div_eq_of_lt (by omega)] at hf
    omega
  rw [magnitude_of_le _ _ hle, hf]

theorem tenth_m_ne_zero (j : Nat) (hj10 : 10 ≤ j) : (roundNE ((j : ℚ) / 10)).m ≠ 0 := by
  obtain ⟨-, -, -, -, -, -, hm, -⟩ := roundNE_spec _ (tenth_pos j hj10)
  have : 0 < 2 ^ 52 := by positivity
  omega

theorem toDigits_length_pos (n : Nat) : 1 ≤ (Nat.toDigits 10 n).length := by
  obtain ⟨pre, h⟩ := toDigits_last n
  rw [h]
  simp


theorem toText_tenths_frac (j : Nat) (hj10 : 10 ≤ j) (hj : j < 10 ^ 14) (hmod : j % 10 ≠ 0) :
    (roundNE ((j : ℚ) / 10)).toText =
      Nat.toDigits 10 (j / 10) ++ '.' :: [Nat.digitChar (j % 10)] := by
  have hmag := tenth_magnitude j hj10 hj
  have hm := tenth_m_ne_zero j hj10
  have hfloor := tenth_floor j hj10 hj
  have hq := tenth_pos j hj10
  have herr := roundNE_error _ hq
  have hval := Double.val_eq_num_div_den (roundNE ((j : ℚ) / 10))
  have hden := Double.den_pos (roundNE ((j : ℚ) / 10))
  have hno1 := no_candidate_nat j hj10 hj
  have hno2 := no_candidate_tenth j hj10 hj
  obtain ⟨V, hV⟩ : ∃ V, roundNE ((j : ℚ) / 10) = V := ⟨_, rfl⟩
  rw [hV] at hmag hm hfloor herr hval hden hno1 hno2 ⊢
  have hD1 := toDigits_length_pos (j / 10)
  have hD13 : (Nat.toDigits 10 (j / 10)).length ≤ 13 :=
    toDigits_length_le (j / 10) 13 (by norm_num) (by omega)
  have hstep := toDigits_step j (by omega)
  generalize hD : (Nat.toDigits 10 (j / 10)).length = D at *
  have hnone : ∀ k, 1 ≤ k → k < D + 1 → tryDigits V D k = none := by
    intro k hk1 hk2
    apply tryDigits_none
    intro s
    have hsh : (k : Int) - (D : Int) = -((D - k : Nat) : Int) := by omega
    rw [hsh, candidate_neg]
    apply hno1
    intro h
    apply hmod
    rw [← h]
    exact Nat.mul_mod_left _ _
  have hK : tryDigits V D (D + 1) = some (j, 1) := by
    have key := tryDigits_unique V (D : Int) (D + 1) j
    have hsh : ((D + 1 : Nat) : Int) - (D : Int) = 1 := by push_cast; ring
    rw [hsh] at key
    simp only [zero_le_one, if_true, Int.toNat_one, pow_one] at key
    apply key
    · rw [candidate_one]
      exact hV
    · intro t ht
      rw [candidate_one]
      exact hno2 t ht
    · have h1 : V.num * 10 / V.den * V.den ≤ V.num * 10 := Nat.div_mul_le_self _ _
      have h2 : V.num * 10 < V.den * (V.num * 10 / V.den + 1) := Nat.lt_mul_div_succ _ hden
      generalize V.num * 10 / V.den = lo at h1 h2 ⊢
      have hdq : (0 : ℚ) < V.den := by exact_mod_cast hden
      have h1q : ((lo * V.den : Nat) : ℚ) ≤ ((V.num * 10 : Nat) : ℚ) := by exact_mod_cast h1
      have h2q : ((V.num * 10 : Nat) : ℚ) < ((V.den * (lo + 1) : Nat) : ℚ) := by
        exact_mod_cast h2
      push_cast at h1q h2q
      have hnum : (V.num : ℚ) = V.val * V.den := by
        rw [hval]; field_simp
      rw [hnum] at h1q h2q
      have h1' : (lo : ℚ) ≤ V.val * 10 := by
        by_contra hc
        push_neg at hc
        have := mul_lt_mul_of_pos_right hc hdq
        linarith
      have h2' : V.val * 10 < (lo : ℚ) + 1 := by
        by_contra hc
        push_neg at hc
        have := mul_le_mul_of_nonneg_right hc (le_of_lt hdq)
        linarith
      rw [abs_le] at herr
      have hsmall : (j : ℚ) / 10 / 2 ^ 53 < 1 / 10 := by
        rw [div_lt_iff₀ (by positivity)]
        have : (10 : ℚ) ^ 13 < 1 / 10 * 2 ^ 53 := by norm_num
        have := tenth_lt j hj
        linarith
      have ha : (lo : ℚ) < ((j + 1 : Nat) : ℚ) := by push_cast; linarith [herr.2]
      have hb : (j : ℚ) < ((lo + 2 : Nat) : ℚ) := by push_cast; linarith [herr.1]
      have ha' : lo < j + 1 := by exact_mod_cast ha
      have hb' : j < lo + 2 := by exact_mod_cast hb
      omega
  have hshort := shortest_skip V D (j, 1) (D + 1) hK 17 1 (by omega) (by omega) hnone
  unfold Double.toText
  rw [if_neg hm, hmag, hshort]
  dsimp only
  rw [stripZeros_toDigits j hmod, hstep]
  unfold formatDecimal
  have hlen : (Nat.toDigits 10 (j / 10) ++ [Nat.digitChar (j % 10)]).length = D + 1 := by
    simp [hD]
  dsimp only
  rw [hlen]
  have hn : ((D + 1 : Nat) : Int) - 1 = (D : Int) := by push_cast; ring
  rw [hn]
  rw [if_neg (by omega), if_pos (by omega)]
  simp [← hD]

theorem toText_tenths_int (j : Nat) (hj10 : 10 ≤ j) (hj : j < 10 ^ 14) (hmod : j % 10 = 0) :
    (roundNE ((j : ℚ) / 10)).toText = Nat.toDigits 10 (j / 10) := by
  have hmag := tenth_magnitude j hj10 hj
  have hm := tenth_m_ne_zero j hj10
  have hfloor := tenth_floor j hj10 hj
  have hno1 := no_candidate_nat j hj10 hj
  obtain ⟨u, s0, hi, hs0⟩ := decompose_pow_ten (j / 10) (by omega)
  have hs1 : 1 ≤ s0 := by omega
  have hji : j = j / 10 * 10 := by omega
  have hq : (j : ℚ) / 10 = ((j / 10 : Nat) : ℚ) := by
    have : (j : ℚ) = ((j / 10 * 10 : Nat) : ℚ) := by exact_mod_cast hji
    rw [this]; push_cast; field_simp
  have hV : roundNE ((j / 10 : Nat) : ℚ) = roundNE ((j : ℚ) / 10) := by rw [hq]
  generalize roundNE ((j : ℚ) / 10) = V at *
  have hD13 : (Nat.toDigits 10 (j / 10)).length ≤ 13 :=
    toDigits_length_le (j / 10) 13 (by norm_num) (by omega)
  have hdig : Nat.toDigits 10 (j / 10) = Nat.toDigits 10 s0 ++ zeros u := by
    rw [hi]; exact toDigits_mul_pow s0 hs1 u
  have hK1 := toDigits_length_pos s0
  have hDK : (Nat.toDigits 10 (j / 10)).length = (Nat.toDigits 10 s0).length + u := by
    rw [hdig]; simp [zeros]
  generalize hD : (Nat.toDigits 10 (j / 10)).length = D at *
  generalize hK0 : (Nat.toDigits 10 s0).length = K0 at *
  have hpow : 0 < 10 ^ u := Nat.pos_pow_of_pos _ (by norm_num)
  have hnone : ∀ k, 1 ≤ k → k < K0 → tryDigits V D k = none := by
    intro k hk1 hk2
    apply tryDigits_none
    intro s
    have hsh : (k : Int) - (D : Int) = -((D - k : Nat) : Int) := by omega
    rw [hsh, candidate_neg]
    apply hno1
    intro h
    apply hs0
    have hexp : D - k = (K0 - k - 1) + 1 + u := by omega
    have h2 : s * 10 ^ (D - k) = j / 10 := by omega
    rw [hi, hexp, pow_add, ← mul_assoc] at h2
    have h3 := Nat.eq_of_mul_eq_mul_right hpow h2
    rw [← h3, pow_succ, ← mul_assoc]
    exact Nat.mul_mod_left _ _
  have hK : tryDigits V D K0 = some (s0, -(u : Int)) := by
    have key := tryDigits_unique V (D : Int) K0 s0
    have hsh : (K0 : Int) - (D : Int) = -(u : Int) := by omega
    rw [hsh] at key
    apply key
    · rw [candidate_neg, ← hi]
      exact hV
    · intro t ht
      rw [candidate_neg]
      apply hno1
      intro h
      apply ht
      have h2 : t * 10 ^ u = j / 10 := by omega
      rw [hi] at h2
      exact Nat.eq_of_mul_eq_mul_right hpow h2
    · left
      by_cases hu : u = 0
      · subst hu
        simp only [Nat.cast_zero, neg_zero, le_refl, if_true, Int.toNat_zero, pow_zero, mul_one]
        rw [hfloor, hi]
        simp
      · have hneg : ¬ (0 : Int) ≤ -(u : Int) := by omega
        simp only [hneg, if_false, neg_neg, Int.toNat_ofNat]
        rw [← Nat.div_div_eq_div_mul, hfloor, hi]
        exact Nat.mul_div_cancel _ hpow
  have hshort := shortest_skip V D (s0, -(u : Int)) K0 hK 17 1 (by omega) (by omega) hnone
  unfold Double.toText
  rw [if_neg hm, hmag, hshort]
  dsimp only
  rw [stripZeros_toDigits s0 hs0, hdig]
  unfold formatDecimal
  dsimp only
  rw [hK0]
  have hn : (K0 : Int) - -(u : Int) = ((K0 + u : Nat) : Int) := by push_cast; ring
  rw [hn, if_pos (by omega)]
  have ht : ((K0 + u : Nat) : Int).toNat - K0 = u := by omega
  rw [ht]


theorem toText_tenths (j : Nat) (hj10 : 10 ≤ j) (hj : j < 10 ^ 14) :
    (roundNE ((j : ℚ) / 10)).toText = tenthsToString j := by
  unfold tenthsToString numberToString
  by_cases hmod : j % 10 = 0
  · rw [if_pos hmod]
    exact toText_tenths_int j hj10 hj hmod
  · rw [if_neg hmod, toText_tenths_frac j hj10 hj hmod,
      toDigits_small (j % 10) (by omega), Nat.mod_mod]

theorem formatMillis_small (n : Nat) (h : n < 1000) : formatMillis n = "0 sec".toList := by
  unfold formatMillis
  rw [if_pos h, floor_div_exact n 1000 (by omega) (by norm_num), Nat.div_eq_of_lt h,
    Double.ofNat_eq, Nat.cast_zero, roundNE_zero]
  rfl

theorem formatMillis_tenths (n : Nat) (h : 1000 ≤ n) (h53 : n < 2 ^ 53) :
    formatMillis n = tenthsToString (n / 100) ++ " sec".toList := by
  unfold formatMillis
  have hk53 : n / 100 < 2 ^ 53 := by omega
  rw [if_neg (by omega), floor_div_exact n 100 h53 (by norm_num), Double.div_eq,
    Double.ofNat_val _ hk53]
  have hc : ((10 : Nat) : ℚ) = 10 := by norm_num
  rw [hc, toText_tenths (n / 100) (by omega) (by omega)]

/-- C10, the larger arguments: at `n = 2 ^ 60` the division by 100 rounds up to the
integer `11529215046068470`, so the text is `1152921504606847 sec`, which is not the
rendering of `floor(n / 100) / 10` and shows a number that exceeds `n / 1000`. -/
theorem formatMillis_large_exceeds :
    formatMillis (2 ^ 60) = "1152921504606847 sec".toList ∧
    formatMillis (2 ^ 60) ≠ tenthsToString (2 ^ 60 / 100) ++ " sec".toList ∧
    readTenths "1152921504606847".toList = some 11529215046068470 ∧
    2 ^ 60 < 100 * 11529215046068470 := by
  set_option maxRecDepth 100000 in
  decide

/-- C10 below `2 ^ 53`: for `0 ≤ n < 1000` the text `formatMillis n` is `0 sec`; for
`1000 ≤ n < 2 ^ 53` it is the decimal rendering of `floor(n / 100) / 10` followed by
` sec`: the rendering reads back as `floor(n / 100)` tenths, a number that does not exceed
`n / 1000` and is less than one tenth below it. -/
theorem formatMillis_spec (n : Nat) :
    (n < 1000 → formatMillis n = "0 sec".toList) ∧
    (1000 ≤ n → n < 2 ^ 53 →
      formatMillis n = tenthsToString (n / 100) ++ " sec".toList ∧
      readTenths (tenthsToString (n / 100)) = some (n / 100) ∧
      100 * (n / 100) ≤ n ∧ n < 100 * (n / 100) + 100) := by
  constructor
  · exact formatMillis_small n
  · intro h h53
    refine ⟨formatMillis_tenths n h h53, readTenths_tenthsToString _, ?_, ?_⟩
    · exact Nat.mul_div_le n 100
    · have := Nat.lt_mul_div_succ n (show 0 < 100 by decide)
      omega

/-- C10 at `n = 999`, `n = 1234`, `n = 61000` and `n = 2 ^ 53 - 1`. -/
theorem formatMillis_spec_witness :
    formatMillis 999 = "0 sec".toList ∧
    formatMillis 1234 = "1.2 sec".toList ∧
    formatMillis 61000 = "61 sec".toList ∧
    formatMillis (2 ^ 53 - 1) = "9007199254740.9 sec".toList ∧
    readTenths (tenthsToString (1234 / 100)) = some 12 :=
  ⟨(formatMillis_spec 999).1 (by decide),
   ((formatMillis_spec 1234).2 (by decide) (by decide)).1.trans (by decide),
   ((formatMillis_spec 61000).2 (by decide) (by decide)).1.trans (by decide),
   ((formatMillis_spec (2 ^ 53 - 1)).2 (by decide) (by decide)).1.trans (by decide),
   ((formatMillis_spec 1234).2 (by decide) (by decide)).2.1⟩

end StorageBox
